import Mathlib

/-!
# Verification of the region-segmentation / layer-clipped drawing engine

A shallow embedding of the core of the `emily-draw` coloring-book
application (region detection, layer generation, clipped stroke
rendering, stroke continuity, history) together with proofs and
refutations of the specification's testable properties.

Conventions of the embedding:

* JavaScript `number` coordinates reaching the region/layer queries are
  always passed through `Math.round` before being used; we model a
  (possibly NaN) coordinate after rounding as `Option Int`, with `none`
  standing for NaN.  All branching in the embedded functions only
  depends on the rounded value and on NaN-ness, so this abstraction is
  exact.
* Flat pixel buffers (`ImageData.data`, `Uint16Array`) are modeled as
  total functions from indices to byte values together with explicit
  dimensions; reads that are out of range in JavaScript produce
  `undefined`, which we model as `Option`-valued reads (`none`), since
  the only use sites compare the read against a number with `===`
  (false for `undefined`) and such reads never throw.
* Mutation is modeled by explicit state passing; the stack-based flood
  fill is run on an explicit fuel that provably dominates its loop
  measure.
-/

/-- RGBA color sample, one byte per channel (`RGB` interface plus the
canvas convention that channels are 0..255). -/
structure RGBA where
  r : Nat
  g : Nat
  b : Nat
  a : Nat
  deriving DecidableEq, Repr

/-- `ImageData`: width, height and a flat row-major RGBA byte buffer.
`data` is a total function; only indices `< 4 * width * height` are
meaningful, and `readByte` below returns `none` (JavaScript
`undefined`) outside that range. -/
structure ImageDataM where
  width : Nat
  height : Nat
  data : Nat → Nat

/-- Read `data[i]` for a possibly negative / out-of-range index, as
JavaScript does on a typed array: a real byte inside the buffer,
`undefined` (here `none`) outside. -/
def ImageDataM.readByte (img : ImageDataM) (i : Int) : Option Nat :=
  if 0 ≤ i ∧ i < 4 * img.width * img.height then some (img.data i.toNat) else none

/-- `getPixelColor(imageData, x, y)` from `floodFill.ts`: direct indexed
read at `(y * width + x) * 4`, no bounds checking (callers guarantee
in-bounds coordinates). -/
def getPixelColor (img : ImageDataM) (x y : Nat) : RGBA :=
  let index := (y * img.width + x) * 4
  ⟨img.data index, img.data (index + 1), img.data (index + 2), img.data (index + 3)⟩

/-- `isBoundaryPixel(color, threshold)` from `canvasUtils.ts`: a pixel
is a boundary pixel iff the unweighted mean of R, G and B is strictly
below the threshold, `(r + g + b) / 3 < threshold`.  We state the
comparison in the kernel-computable cross-multiplied form
`(r + g + b) · den(t) < 3 · num(t)`, which is exactly equivalent to the
rational comparison (`isBoundaryPixel_iff` below); the JavaScript
double division `(r+g+b)/3` agrees with the exact rational comparison
for all byte channels and the integer thresholds in use, since the
rounding error of `s/3` is far smaller than the least possible nonzero
distance between `s/3` and an integer threshold. -/
def isBoundaryPixel (color : RGBA) (threshold : ℚ) : Bool :=
  ((color.r + color.g + color.b : Int) * threshold.den < 3 * threshold.num : Bool)

/-- The comparison inside `isBoundaryPixel` is exactly the rational
brightness test `(r + g + b) / 3 < threshold` of the source. -/
theorem isBoundaryPixel_iff (color : RGBA) (threshold : ℚ) :
    isBoundaryPixel color threshold = true ↔
      ((color.r + color.g + color.b : ℚ) / 3 < threshold) := by
  unfold isBoundaryPixel
  rw [div_lt_iff₀ (by norm_num : (0:ℚ) < 3)]
  rw [show threshold * 3 = (3 * threshold.num : Int) / (threshold.den : ℚ) by
    push_cast
    rw [mul_comm, mul_div_assoc, Rat.num_div_den]]
  rw [lt_div_iff₀ (by exact_mod_cast threshold.pos : (0:ℚ) < (threshold.den : ℚ))]
  simp only [decide_eq_true_eq]
  exact_mod_cast Iff.rfl

/-- `RegionMap` from `regionDetection.ts`.  `pixelToRegion` is modeled
as a total function `y → x → id`; the TypeScript value is a
`height × width` array of numbers, `-1` = boundary, `0` = unassigned,
`> 0` = region id. -/
structure RegionMap where
  width : Nat
  height : Nat
  regionCount : Nat
  pixelToRegion : Nat → Nat → Int

/-- `getRegionAt(regionMap, x, y)` from `regionDetection.ts`:
coordinates are rounded (already done in our coordinate model), NaN and
out-of-bounds inputs return `0`, otherwise the map is read directly. -/
def getRegionAt (m : RegionMap) (x y : Option Int) : Int :=
  match x, y with
  | some xi, some yi =>
      if xi < 0 ∨ (m.width : Int) ≤ xi ∨ yi < 0 ∨ (m.height : Int) ≤ yi then 0
      else m.pixelToRegion yi.toNat xi.toNat
  | _, _ => 0

/-- The neighborhood scan of `getRegionAtWithTolerance`: for offsets
`dx, dy ∈ [-tolerance, tolerance]`, excluding the origin and skipping
out-of-bounds neighbors, test whether some neighbor's region id equals
the target id.  The JavaScript loop returns the constant
`targetRegionId` at the first hit, so only existence matters. -/
def toleranceHit (m : RegionMap) (x y : Int) (targetRegionId : Int) (tolerance : Nat) : Bool :=
  (List.range (2 * tolerance + 1)).any fun dyi =>
    (List.range (2 * tolerance + 1)).any fun dxi =>
      let dy : Int := (dyi : Int) - tolerance
      let dx : Int := (dxi : Int) - tolerance
      if dx = 0 ∧ dy = 0 then false
      else
        let nearbyX := x + dx
        let nearbyY := y + dy
        if nearbyX < 0 ∨ (m.width : Int) ≤ nearbyX ∨ nearbyY < 0 ∨ (m.height : Int) ≤ nearbyY then
          false
        else
          getRegionAt m (some nearbyX) (some nearbyY) = targetRegionId

/-- `getRegionAtWithTolerance(regionMap, x, y, targetRegionId,
tolerance)` from `regionDetection.ts`: a direct hit on a region is
returned as-is; a boundary pixel (`-1`) is reported as `targetRegionId`
if the target region appears in the tolerance neighborhood; everything
else is returned unchanged.  NaN coordinates make the direct lookup
`0`, so they never reach the neighborhood scan. -/
def getRegionAtWithTolerance (m : RegionMap) (x y : Option Int) (targetRegionId : Int)
    (tolerance : Nat) : Int :=
  let regionId := getRegionAt m x y
  if 0 < regionId then regionId
  else if regionId = -1 then
    match x, y with
    | some xi, some yi =>
        if toleranceHit m xi yi targetRegionId tolerance then targetRegionId else regionId
    | _, _ => regionId
  else regionId

/-- A two-pixel map whose single row is `[region 1, region 2]`:
`pixelToRegion[0] = [1, 2]`. -/
def twoRegionMap : RegionMap :=
  { width := 2, height := 1, regionCount := 2,
    pixelToRegion := fun _ x => if x = 0 then 1 else 2 }

/-- C2, counterexample.  Querying the pixel `(1, 0)` of `twoRegionMap`
(which lies directly inside region `2`) with `targetId = 1` makes
`getRegionAtWithTolerance` return `2`: a concrete region id that is
neither `0`, `-1`, nor the queried target.  The direct-lookup branch
`if (regionId > 0) return regionId` passes foreign region ids
through. -/
theorem getRegionAtWithTolerance_returns_foreign_id :
    getRegionAtWithTolerance twoRegionMap (some 1) (some 0) 1 2 = 2 ∧
      (2 : Int) ≠ 0 ∧ (2 : Int) ≠ -1 ∧ (2 : Int) ≠ 1 := by
  decide

/-- C2, amended.  `getRegionAtWithTolerance` either returns the direct
lookup `getRegionAt` unchanged (which can be any concrete region id the
pixel itself lies in, `0`, or `-1`), or returns the queried
`targetRegionId`; the tolerance scan itself only ever resolves a
boundary pixel in favor of the queried target, never of a different
concrete region. -/
theorem getRegionAtWithTolerance_direct_or_target (m : RegionMap) (x y : Option Int)
    (targetRegionId : Int) (tolerance : Nat) :
    getRegionAtWithTolerance m x y targetRegionId tolerance = getRegionAt m x y ∨
      getRegionAtWithTolerance m x y targetRegionId tolerance = targetRegionId := by
  unfold getRegionAtWithTolerance
  set r := getRegionAt m x y with hr
  by_cases h0 : 0 < r
  · simp [h0]
  · by_cases h1 : r = -1
    · match x, y with
      | some xi, some yi =>
          by_cases ht : toleranceHit m xi yi targetRegionId tolerance
          · simp [h0, h1, ht]
          · simp [h0, h1, ht]
      | some xi, none => simp [h0, h1]
      | none, some yi => simp [h0, h1]
      | none, none => simp [h0, h1]
    · simp [h0, h1]

/-! ## Region segmentation (`detectRegions` / `floodFillRegion`) -/

/-- Point-update of a `pixelToRegion` grid at column `x`, row `y`
(mirrors `pixelToRegion[y][x] = v`). -/
def setGrid (g : Nat → Nat → Int) (x y : Nat) (v : Int) : Nat → Nat → Int :=
  fun y' x' => if y' = y ∧ x' = x then v else g y' x'

/-- Mutable state of the stack-based flood fill in
`floodFillRegion`: the explicit stack (coordinates may step outside the
canvas, hence `Int`), the per-run visited set (the source keys it by the
string `"x,y"`, i.e. exactly by the coordinate pair), the region grid,
and the accumulated list of pixels belonging to the run. -/
structure FFState where
  stack : List (Int × Int)
  visited : Finset (Int × Int)
  grid : Nat → Nat → Int
  pixels : List (Nat × Nat)

/-- One `while (stack.length > 0)` loop of `floodFillRegion`, run on
explicit fuel.  Each iteration pops the stack top; out-of-bounds and
already-visited coordinates are dropped; a fresh coordinate is marked
visited, and if its grid cell is still `0` it is appended to the run,
assigned `regionId`, and its four neighbors are pushed (the source
pushes `x+1`, `x-1`, `y+1`, `y-1` in that order, so `y-1` is popped
first). -/
def ffLoop (w h : Nat) (regionId : Int) : Nat → FFState → FFState
  | 0, s => s
  | fuel + 1, s =>
    match s.stack with
    | [] => s
    | (x, y) :: rest =>
      if x < 0 ∨ (w : Int) ≤ x ∨ y < 0 ∨ (h : Int) ≤ y then
        ffLoop w h regionId fuel { s with stack := rest }
      else if (x, y) ∈ s.visited then
        ffLoop w h regionId fuel { s with stack := rest }
      else
        let s1 : FFState := { s with stack := rest, visited := insert (x, y) s.visited }
        if s1.grid y.toNat x.toNat ≠ 0 then
          ffLoop w h regionId fuel s1
        else
          ffLoop w h regionId fuel
            { stack := (x, y - 1) :: (x, y + 1) :: (x - 1, y) :: (x + 1, y) :: rest,
              visited := s1.visited,
              grid := setGrid s1.grid x.toNat y.toNat regionId,
              pixels := s1.pixels ++ [(x.toNat, y.toNat)] }

/-- `floodFillRegion(imageData, pixelToRegion, startX, startY,
regionId)`: run the stack loop from the start pixel.  The fuel
`5 * w * h + 1` dominates the loop measure
`5 * #unvisited-in-bounds + stack length` (proved below), so the loop
always drains its stack within this fuel. -/
def floodFillRegion (w h : Nat) (grid : Nat → Nat → Int) (startX startY : Nat)
    (regionId : Int) : FFState :=
  ffLoop w h regionId (5 * (w * h) + 1)
    { stack := [((startX : Int), (startY : Int))], visited := ∅, grid := grid, pixels := [] }

/-- The grid of `detectRegions` after its boundary-marking pass:
boundary pixels are `-1`, all other cells `0`. -/
def initialGrid (img : ImageDataM) (threshold : ℚ) : Nat → Nat → Int :=
  fun y x =>
    if y < img.height ∧ x < img.width ∧ isBoundaryPixel (getPixelColor img x y) threshold then -1
    else 0

/-- Relabel every pixel of a (too small) flood-fill run back to `-1`. -/
def relabelAll (g : Nat → Nat → Int) (pixels : List (Nat × Nat)) : Nat → Nat → Int :=
  pixels.foldl (fun g' p => setGrid g' p.1 p.2 (-1)) g

/-- Accumulator of the raster scan in `detectRegions`. -/
structure ScanState where
  grid : Nat → Nat → Int
  regionCount : Nat
  currentRegionId : Int

/-- One raster-scan step of `detectRegions` at pixel `p = (x, y)`:
already-assigned or boundary pixels are skipped; a still-`0` pixel is
flood-filled, and the run is kept (assigning the next sequential id)
iff it has at least `minRegionSize` pixels, otherwise relabeled to
`-1`. -/
def scanStep (minRegionSize w h : Nat) (st : ScanState) (p : Nat × Nat) : ScanState :=
  if st.grid p.2 p.1 ≠ 0 then st
  else
    let ff := floodFillRegion w h st.grid p.1 p.2 st.currentRegionId
    if minRegionSize ≤ ff.pixels.length then
      { grid := ff.grid, regionCount := st.regionCount + 1,
        currentRegionId := st.currentRegionId + 1 }
    else
      { grid := relabelAll ff.grid ff.pixels, regionCount := st.regionCount,
        currentRegionId := st.currentRegionId }

/-- The pixels of a `w × h` canvas in the raster-scan order of
`detectRegions` (outer loop over `y`, inner loop over `x`). -/
def rowMajorPositions (w h : Nat) : List (Nat × Nat) :=
  (List.range (h * w)).map fun k => (k % w, k / w)

/-- `detectRegions(imageData, boundaryThreshold, minRegionSize)` from
`regionDetection.ts`: mark boundary pixels, then raster-scan and flood
fill the remaining `0` cells, keeping only runs of at least
`minRegionSize` pixels. -/
def detectRegions (img : ImageDataM) (boundaryThreshold : ℚ) (minRegionSize : Nat) :
    RegionMap :=
  let w := img.width
  let h := img.height
  let final := (rowMajorPositions w h).foldl (scanStep minRegionSize w h)
    { grid := initialGrid img boundaryThreshold, regionCount := 0, currentRegionId := 1 }
  { width := w, height := h, regionCount := final.regionCount, pixelToRegion := final.grid }

/-- The call `detectRegions(imageData)` with the source's declared
default arguments: `boundaryThreshold = 128` and `minRegionSize = 10`
(`regionDetection.ts`, lines 21–25). -/
def detectRegionsDefaults (img : ImageDataM) : RegionMap :=
  detectRegions img 128 10

/-- A 4 × 4 all-white image: a single 16-pixel connected non-boundary
area with no boundary pixels. -/
def whiteImage4 : ImageDataM :=
  { width := 4, height := 4, data := fun _ => 255 }

/-- C8, counterexample.  On the all-white 4 × 4 image, calling
`detectRegions` without explicit optional arguments keeps the 16-pixel
area as a region (`regionCount = 1`), while a minimum region size of
`100` would have discarded it (`regionCount = 0`): the source default
is `minRegionSize = 10`, not `100` (the callers pass `100`
explicitly). -/
theorem detectRegions_default_minRegionSize_is_ten :
    (detectRegionsDefaults whiteImage4).regionCount = 1 ∧
      (detectRegions whiteImage4 128 100).regionCount = 0 := by
  constructor <;> decide

/-! ## Layer generation and clipped strokes (`layerGeneration.ts`) -/

/-- The mask `ImageData` that `generateLayers` builds for region
`regionId`: all four channels are `255` on pixels belonging to the
region and `0` elsewhere (flat index `i` describes channel `i % 4` of
pixel `i / 4`). -/
def generateMask (m : RegionMap) (regionId : Int) : ImageDataM :=
  { width := m.width, height := m.height,
    data := fun i =>
      let p := i / 4
      let y := p / m.width
      let x := p % m.width
      if y < m.height ∧ m.pixelToRegion y x = regionId then 255 else 0 }

/-- The layer surface right after `generateLayers` stamps the mask onto
the fresh canvas with `putImageData(mask, 0, 0)`: pixel `p` of the
canvas holds exactly the mask's RGBA bytes (lossless here, since every
mask pixel is either fully opaque white or fully transparent). -/
def stampMask (mask : ImageDataM) : Nat → RGBA :=
  fun p => ⟨mask.data (4 * p), mask.data (4 * p + 1), mask.data (4 * p + 2),
            mask.data (4 * p + 3)⟩

/-- `DrawingLayer` from `layerGeneration.ts`: the region id, the
clipping mask, and the mutable canvas surface (we model the canvas +
context pair as the pixel content `surface`). -/
structure DrawingLayer where
  id : Int
  mask : ImageDataM
  surface : Nat → RGBA

/-- `generateLayers(regionMap)`: one layer per region id in
`[1, regionCount]`, each with its mask and with the mask pre-stamped
onto the layer surface. -/
def generateLayers (m : RegionMap) : List DrawingLayer :=
  (List.range m.regionCount).map fun (i : Nat) =>
    let mask := generateMask m ((i : Int) + 1)
    { id := (i : Int) + 1, mask := mask, surface := stampMask mask }

/-- Porter–Duff `source-atop` compositing of one source sample over one
destination sample, on premultiplied 0..255 components: the source is
kept only where the destination has coverage, and the destination
alpha is preserved (`αo = αs·αb + αb·(255-αs) = αb`). -/
def sourceAtop (dst src : RGBA) : RGBA :=
  ⟨(src.r * dst.a + dst.r * (255 - src.a)) / 255,
   (src.g * dst.a + dst.g * (255 - src.a)) / 255,
   (src.b * dst.a + dst.b * (255 - src.a)) / 255,
   (src.a * dst.a + dst.a * (255 - src.a)) / 255⟩

/-- `drawStrokeWithClipping(layerCanvas, layerCtx, mask,
strokeCallback)`: the stroke callback renders an arbitrary source image
(dot, line segment, solid, soft/shadowed, or eraser stroke — shadows
honor the active composite operation too) while
`globalCompositeOperation = "source-atop"` is active, so its net effect
on the surface is a per-pixel source-atop composite of that source
image. -/
def drawStrokeWithClipping (surface : Nat → RGBA) (stroke : Nat → RGBA) : Nat → RGBA :=
  fun p => sourceAtop (surface p) (stroke p)

/-- A finite sequence of clipped strokes applied in order to a layer
surface. -/
def applyClippedStrokes (surface : Nat → RGBA) (strokes : List (Nat → RGBA)) : Nat → RGBA :=
  strokes.foldl drawStrokeWithClipping surface

/-- `source-atop` preserves the destination alpha exactly (for byte
source alphas): the Uint8 arithmetic gives
`(αs·αb + αb·(255-αs)) / 255 = αb·255/255 = αb`. -/
theorem sourceAtop_alpha (dst src : RGBA) (hs : src.a ≤ 255) :
    (sourceAtop dst src).a = dst.a := by
  unfold sourceAtop
  simp only
  rw [mul_comm src.a dst.a, ← Nat.mul_add, Nat.add_sub_cancel' hs]
  exact Nat.mul_div_cancel dst.a (by norm_num)

/-- The alpha channel of a layer surface is invariant under any
sequence of clipped strokes. -/
theorem applyClippedStrokes_alpha (surface : Nat → RGBA) (strokes : List (Nat → RGBA))
    (p : Nat) (h : ∀ s ∈ strokes, (s p).a ≤ 255) :
    (applyClippedStrokes surface strokes p).a = (surface p).a := by
  induction strokes generalizing surface with
  | nil => rfl
  | cons s rest ih =>
      have hrest : ∀ s' ∈ rest, (s' p).a ≤ 255 := fun s' hs' => h s' (List.mem_cons_of_mem _ hs')
      calc (applyClippedStrokes surface (s :: rest) p).a
          = (applyClippedStrokes (drawStrokeWithClipping surface s) rest p).a := rfl
        _ = (drawStrokeWithClipping surface s p).a := ih _ hrest
        _ = (surface p).a := sourceAtop_alpha _ _ (h s (List.mem_cons_self s rest))

/-- Every layer produced by `generateLayers` carries the mask-stamped
initial surface. -/
theorem generateLayers_surface (m : RegionMap) (L : DrawingLayer)
    (hL : L ∈ generateLayers m) : L.surface = stampMask L.mask := by
  unfold generateLayers at hL
  obtain ⟨i, _, rfl⟩ := List.mem_map.mp hL
  rfl

/-- C1.  For every layer built from a `RegionMap` and every finite
sequence of clipped stroke operations (arbitrary source images with
byte alpha channels, covering dots, line segments, solid, soft and
eraser brushes of any size) applied to the layer's surface via
`drawStrokeWithClipping`, every pixel that is opaque on the resulting
surface is opaque in the layer's mask: a clipped stroke never paints
outside the mask. -/
theorem clipped_strokes_stay_inside_mask (m : RegionMap) (L : DrawingLayer)
    (hL : L ∈ generateLayers m) (strokes : List (Nat → RGBA))
    (hbyte : ∀ s ∈ strokes, ∀ p, (s p).a ≤ 255) (p : Nat)
    (hfull : (applyClippedStrokes L.surface strokes p).a = 255) :
    L.mask.data (4 * p + 3) = 255 := by
  have hsurf := generateLayers_surface m L hL
  have halpha := applyClippedStrokes_alpha L.surface strokes p (fun s hs => hbyte s hs p)
  rw [halpha, hsurf] at hfull
  exact hfull

/-- A 1 × 1 map whose single pixel belongs to region `1`. -/
def onePixelMap : RegionMap :=
  { width := 1, height := 1, regionCount := 1, pixelToRegion := fun _ _ => 1 }

/-- The single layer generated for `onePixelMap`. -/
def onePixelLayer : DrawingLayer :=
  { id := 1, mask := generateMask onePixelMap 1,
    surface := stampMask (generateMask onePixelMap 1) }

/-- A concrete semi-transparent gray stroke source. -/
def grayStroke : Nat → RGBA := fun _ => ⟨90, 90, 90, 200⟩

/-- C1, witness: on the concrete one-pixel layer, one concrete clipped
stroke leaves pixel `0` opaque, and the theorem places it inside the
mask. -/
theorem clipped_strokes_stay_inside_mask_witness :
    onePixelLayer ∈ generateLayers onePixelMap ∧
      (∀ s ∈ [grayStroke], ∀ p, (s p).a ≤ 255) ∧
      (applyClippedStrokes onePixelLayer.surface [grayStroke] 0).a = 255 ∧
      onePixelLayer.mask.data (4 * 0 + 3) = 255 :=
  ⟨List.mem_singleton.mpr rfl,
   by intro s hs p; simp only [List.mem_singleton] at hs; subst hs; show (200 : Nat) ≤ 255; decide,
   by decide,
   clipped_strokes_stay_inside_mask onePixelMap onePixelLayer (List.mem_singleton.mpr rfl)
     [grayStroke]
     (by intro s hs p; simp only [List.mem_singleton] at hs; subst hs; show (200 : Nat) ≤ 255; decide) 0
     (by decide)⟩

/-! ## The layer lookup table (`createLayerLookupTable` / C5) -/

/-- `LayerLookupTable` from `layerGeneration.ts`: dimensions plus the
flat `Uint16Array` mapping linear pixel indices to 0-based layer
indices, with `65535` as the "no layer" sentinel.  The typed array is
modeled as a total function; every value stored by the program is
reduced mod `2^16` exactly as a `Uint16Array` store does. -/
structure LayerLookupTable where
  width : Nat
  height : Nat
  data : Nat → Nat

/-- The `layers.forEach` loop of `createLayerLookupTable`: layers are
processed in order with their 0-based index, and for every canvas pixel
whose mask alpha byte is `255` the layer index is stored at the pixel's
linear index (later layers overwrite earlier ones). -/
def lutFill (width height : Nat) : List DrawingLayer → Nat → (Nat → Nat) → Nat → Nat
  | [], _, d => d
  | L :: rest, layerIndex, d =>
      lutFill width height rest (layerIndex + 1) fun i =>
        if i < width * height ∧ L.mask.readByte (4 * i + 3) = some 255 then layerIndex % 65536
        else d i

/-- `createLayerLookupTable(layers, width, height)`: a `Uint16Array` of
size `width × height` filled with the sentinel `65535`, then populated
from each layer's mask. -/
def createLayerLookupTable (layers : List DrawingLayer) (width height : Nat) :
    LayerLookupTable :=
  { width := width, height := height,
    data := lutFill width height layers 0 fun _ => 65535 }

/-- Unfolding lemma for the table contents. -/
theorem createLayerLookupTable_data (layers : List DrawingLayer) (width height i : Nat) :
    (createLayerLookupTable layers width height).data i =
      lutFill width height layers 0 (fun _ => 65535) i := rfl

/-- A layer's mask is opaque at linear pixel index `i` (alpha byte
`255`; reads outside the mask buffer are `undefined` and never count as
opaque). -/
def maskOpaqueAtPixel (L : DrawingLayer) (i : Nat) : Prop :=
  L.mask.readByte (4 * i + 3) = some 255

instance (L : DrawingLayer) (i : Nat) : Decidable (maskOpaqueAtPixel L i) := by
  unfold maskOpaqueAtPixel; infer_instance

/-- The index (counting from `layerIndex`) of the last layer in the
list whose mask is opaque at in-range linear pixel `i`, if any: this is
the layer whose write survives in the lookup table. -/
def lastOpaqueIndex (width height i : Nat) : List DrawingLayer → Nat → Option Nat
  | [], _ => none
  | L :: rest, layerIndex =>
      match lastOpaqueIndex width height i rest (layerIndex + 1) with
      | some j => some j
      | none =>
          if i < width * height ∧ L.mask.readByte (4 * i + 3) = some 255 then some layerIndex
          else none

/-- The lookup-table fill is last-writer-wins per pixel. -/
theorem lutFill_eq_lastOpaqueIndex (width height : Nat) (layers : List DrawingLayer)
    (start : Nat) (d : Nat → Nat) (i : Nat) :
    lutFill width height layers start d i =
      match lastOpaqueIndex width height i layers start with
      | some j => j % 65536
      | none => d i := by
  induction layers generalizing start d with
  | nil => rfl
  | cons L rest ih =>
      show lutFill width height rest (start + 1) _ i = _
      rw [ih]
      show _ = (match lastOpaqueIndex width height i (L :: rest) start with
        | some j => j % 65536
        | none => d i)
      cases h : lastOpaqueIndex width height i rest (start + 1) with
      | some j => simp only [lastOpaqueIndex, h]
      | none =>
          simp only [lastOpaqueIndex, h]
          by_cases hc : i < width * height ∧ L.mask.readByte (4 * i + 3) = some 255
          · simp only [if_pos hc]
          · simp only [if_neg hc]

/-- The table stores (mod 2^16) the index of the last layer whose mask
is opaque at the pixel, when one exists. -/
theorem createLayerLookupTable_data_of_lastOpaque (layers : List DrawingLayer)
    (width height i j : Nat) (hlast : lastOpaqueIndex width height i layers 0 = some j) :
    (createLayerLookupTable layers width height).data i = j % 65536 := by
  rw [createLayerLookupTable_data, lutFill_eq_lastOpaqueIndex, hlast]

/-- If no layer in the list is opaque at `i`, nothing is recorded. -/
theorem lastOpaqueIndex_eq_none (width height i : Nat) (layers : List DrawingLayer)
    (start : Nat)
    (h : ∀ L ∈ layers, ¬(i < width * height ∧ L.mask.readByte (4 * i + 3) = some 255)) :
    lastOpaqueIndex width height i layers start = none := by
  induction layers generalizing start with
  | nil => rfl
  | cons L rest ih =>
      have hrest := ih (start + 1) fun L' hL' => h L' (List.mem_cons_of_mem _ hL')
      simp only [lastOpaqueIndex, hrest]
      exact if_neg (h L (List.mem_cons_self L rest))

/-- If exactly one layer (position `k`) is opaque at `i`, its index
survives as the recorded value. -/
theorem lastOpaqueIndex_eq_unique (width height i : Nat) (layers : List DrawingLayer)
    (start k : Nat) (hk : k < layers.length)
    (hop : i < width * height ∧ (layers.get ⟨k, hk⟩).mask.readByte (4 * i + 3) = some 255)
    (huniq : ∀ k' (hk' : k' < layers.length),
      i < width * height → (layers.get ⟨k', hk'⟩).mask.readByte (4 * i + 3) = some 255 →
        k' = k) :
    lastOpaqueIndex width height i layers start = some (start + k) := by
  induction layers generalizing start k with
  | nil => exact absurd hk (Nat.not_lt_zero k)
  | cons L rest ih =>
      cases k with
      | zero =>
          have hnone : lastOpaqueIndex width height i rest (start + 1) = none := by
            apply lastOpaqueIndex_eq_none
            intro L' hL' hcontra
            obtain ⟨⟨k', hk'⟩, hget⟩ := List.mem_iff_get.mp hL'
            have := huniq (k' + 1) (Nat.succ_lt_succ hk') hcontra.1
              (by rw [show (L :: rest).get ⟨k' + 1, Nat.succ_lt_succ hk'⟩ = rest.get ⟨k', hk'⟩
                    from rfl, hget]
                  exact hcontra.2)
            exact absurd this (Nat.succ_ne_zero k')
          simp only [lastOpaqueIndex, hnone]
          have hopL : i < width * height ∧ L.mask.readByte (4 * i + 3) = some 255 := hop
          rw [if_pos hopL, Nat.add_zero]
      | succ k' =>
          have hk'' : k' < rest.length := Nat.lt_of_succ_lt_succ hk
          have hrec := ih (start + 1) k' hk'' hop fun k'' hk''' hi hop' => by
            have := huniq (k'' + 1) (Nat.succ_lt_succ hk''') hi hop'
            exact Nat.succ_injective this
          simp only [lastOpaqueIndex, hrec]
          congr 1
          omega

/-- `generateLayers` produces one layer per region id. -/
theorem generateLayers_length (m : RegionMap) :
    (generateLayers m).length = m.regionCount := by
  unfold generateLayers
  rw [List.length_map, List.length_range]

/-- The `k`-th generated layer (0-based) is the layer of region id
`k + 1`. -/
theorem generateLayers_get (m : RegionMap) (k : Nat)
    (hk : k < (generateLayers m).length) :
    (generateLayers m).get ⟨k, hk⟩ =
      { id := (k : Int) + 1, mask := generateMask m ((k : Int) + 1),
        surface := stampMask (generateMask m ((k : Int) + 1)) } := by
  unfold generateLayers
  rw [List.get_eq_getElem, List.getElem_map, List.getElem_range]

/-- The alpha byte of a generated mask at an in-range linear pixel
index reflects region membership of that pixel. -/
theorem generateMask_readByte (m : RegionMap) (rid : Int) (i : Nat)
    (hi : i < m.width * m.height) :
    (generateMask m rid).readByte (4 * i + 3) =
      some (if m.pixelToRegion (i / m.width) (i % m.width) = rid then 255 else 0) := by
  have hw : 0 < m.width := by
    rcases Nat.eq_zero_or_pos m.width with h | h
    · rw [h] at hi; simp at hi
    · exact h
  have hyh : i / m.width < m.height := Nat.div_lt_of_lt_mul hi
  unfold ImageDataM.readByte generateMask
  have hcast : ((4 * i + 3 : Nat) : Int) = 4 * (i : Int) + 3 := by push_cast; ring
  have hrange : (0 : Int) ≤ 4 * (i : Int) + 3 ∧
      4 * (i : Int) + 3 < 4 * m.width * m.height := by
    constructor
    · positivity
    · rw [show (4 : Int) * m.width * m.height = 4 * (m.width * m.height : Nat) by push_cast; ring]
      omega
  rw [if_pos hrange]
  simp only
  rw [show (4 * (i : Int) + 3).toNat = 4 * i + 3 by omega]
  rw [show (4 * i + 3) / 4 = i by omega]
  rw [if_congr (Iff.intro (fun h => h.2) (fun h => ⟨hyh, h⟩)) rfl rfl]

/-- Opacity of the `k`-th generated layer at an in-range linear index
is exactly membership of the pixel in region `k + 1`. -/
theorem generateLayers_opaque_iff (m : RegionMap) (k : Nat)
    (hk : k < (generateLayers m).length) (i : Nat) (hi : i < m.width * m.height) :
    maskOpaqueAtPixel ((generateLayers m).get ⟨k, hk⟩) i ↔
      m.pixelToRegion (i / m.width) (i % m.width) = (k : Int) + 1 := by
  rw [generateLayers_get]
  unfold maskOpaqueAtPixel
  simp only
  rw [generateMask_readByte m ((k : Int) + 1) i hi]
  by_cases h : m.pixelToRegion (i / m.width) (i % m.width) = (k : Int) + 1
  · simp [h]
  · simp [h]

/-- C5, amended.  For the lookup table built by
`createLayerLookupTable` from the layers generated from a `RegionMap`
with at most `65535` regions (so that every 0-based layer index is
representable in the `Uint16` table and distinct from the sentinel),
and for every in-bounds pixel `(x, y)`: the entry at `y*width + x` is
the sentinel `65535` iff no layer's mask is opaque there, and otherwise
it equals the index of the unique layer whose mask is opaque there. -/
theorem lookupTable_agrees_with_masks (m : RegionMap) (hcount : m.regionCount ≤ 65535)
    (x y : Nat) (hx : x < m.width) (hy : y < m.height) :
    ((createLayerLookupTable (generateLayers m) m.width m.height).data (y * m.width + x)
        = 65535 ↔
      ∀ L ∈ generateLayers m, ¬ maskOpaqueAtPixel L (y * m.width + x)) ∧
    (∀ k (hk : k < (generateLayers m).length),
      maskOpaqueAtPixel ((generateLayers m).get ⟨k, hk⟩) (y * m.width + x) →
        (createLayerLookupTable (generateLayers m) m.width m.height).data (y * m.width + x)
          = k) := by
  set i := y * m.width + x with hidef
  have hi : i < m.width * m.height := by
    calc y * m.width + x < y * m.width + m.width := by omega
      _ = (y + 1) * m.width := by ring
      _ ≤ m.height * m.width := Nat.mul_le_mul_right _ hy
      _ = m.width * m.height := Nat.mul_comm _ _
  have hdiv : i / m.width = y := by
    rw [hidef, Nat.add_comm, Nat.add_mul_div_right _ _ (by omega : 0 < m.width),
      Nat.div_eq_of_lt hx, Nat.zero_add]
  have hmod : i % m.width = x := by
    rw [hidef, Nat.add_comm, Nat.add_mul_mod_self_right, Nat.mod_eq_of_lt hx]
  have hopiff : ∀ k (hk : k < (generateLayers m).length),
      maskOpaqueAtPixel ((generateLayers m).get ⟨k, hk⟩) i ↔
        m.pixelToRegion y x = (k : Int) + 1 := by
    intro k hk
    rw [generateLayers_opaque_iff m k hk i hi, hdiv, hmod]
  have hdata := createLayerLookupTable_data (generateLayers m) m.width m.height i
  by_cases hin : 1 ≤ m.pixelToRegion y x ∧ m.pixelToRegion y x ≤ (m.regionCount : Int)
  · -- the pixel lies in a kept region: layer index k = id - 1 wins
    set k := (m.pixelToRegion y x - 1).toNat with hkdef
    have hkv : (k : Int) + 1 = m.pixelToRegion y x := by omega
    have hk : k < (generateLayers m).length := by
      rw [generateLayers_length]; omega
    have hopk : maskOpaqueAtPixel ((generateLayers m).get ⟨k, hk⟩) i :=
      (hopiff k hk).mpr hkv.symm
    have huniq : ∀ k' (hk' : k' < (generateLayers m).length),
        i < m.width * m.height →
        ((generateLayers m).get ⟨k', hk'⟩).mask.readByte (4 * i + 3) = some 255 → k' = k := by
      intro k' hk' _ hop'
      have := (hopiff k' hk').mp hop'
      omega
    have hlast : lastOpaqueIndex m.width m.height i (generateLayers m) 0 = some (0 + k) :=
      lastOpaqueIndex_eq_unique m.width m.height i (generateLayers m) 0 k hk
        ⟨hi, hopk⟩ huniq
    have hval : (createLayerLookupTable (generateLayers m) m.width m.height).data i = k := by
      rw [hdata, lutFill_eq_lastOpaqueIndex, hlast]
      have : k < 65536 := by
        have := generateLayers_length m
        omega
      simp only [Nat.zero_add]
      exact Nat.mod_eq_of_lt this
    constructor
    · constructor
      · intro hsent
        exfalso
        have : k = 65535 := by omega
        have hlen := generateLayers_length m
        omega
      · intro hnone
        exact absurd hopk (hnone _ (List.get_mem _ _ _))
    · intro k' hk' hop'
      rw [huniq k' hk' hi hop', hval]
  · -- the pixel lies in no kept region: the sentinel survives
    have hnone : ∀ k (hk : k < (generateLayers m).length),
        ¬ maskOpaqueAtPixel ((generateLayers m).get ⟨k, hk⟩) i := by
      intro k hk hop
      have hv := (hopiff k hk).mp hop
      have hlen := generateLayers_length m
      omega
    have hlast : lastOpaqueIndex m.width m.height i (generateLayers m) 0 = none := by
      apply lastOpaqueIndex_eq_none
      intro L hL hcond
      obtain ⟨⟨k', hk'⟩, hget⟩ := List.mem_iff_get.mp hL
      exact hnone k' hk' (by rw [maskOpaqueAtPixel, hget]; exact hcond.2)
    have hval : (createLayerLookupTable (generateLayers m) m.width m.height).data i
        = 65535 := by
      rw [hdata, lutFill_eq_lastOpaqueIndex, hlast]
    constructor
    · constructor
      · intro _ L hL hop
        obtain ⟨⟨k', hk'⟩, hget⟩ := List.mem_iff_get.mp hL
        exact hnone k' hk' (by rw [maskOpaqueAtPixel, hget]; exact hop)
      · intro _
        exact hval
    · intro k' hk' hop'
      exact absurd hop' (hnone k' hk')

/-- C5, witness: on a concrete 2 × 1 map with one region covering only
pixel `(0, 0)`, the lookup table stores index `0` at `(0, 0)` and the
sentinel at `(1, 0)`. -/
theorem lookupTable_agrees_with_masks_witness :
    onePixelMap.regionCount ≤ 65535 ∧ 0 < onePixelMap.width ∧ 0 < onePixelMap.height ∧
      (((createLayerLookupTable (generateLayers onePixelMap) onePixelMap.width
          onePixelMap.height).data (0 * onePixelMap.width + 0) = 65535 ↔
        ∀ L ∈ generateLayers onePixelMap, ¬ maskOpaqueAtPixel L
          (0 * onePixelMap.width + 0)) ∧
      (∀ k (hk : k < (generateLayers onePixelMap).length),
        maskOpaqueAtPixel ((generateLayers onePixelMap).get ⟨k, hk⟩)
          (0 * onePixelMap.width + 0) →
          (createLayerLookupTable (generateLayers onePixelMap) onePixelMap.width
            onePixelMap.height).data (0 * onePixelMap.width + 0) = k)) :=
  ⟨by decide, by decide, by decide,
   lookupTable_agrees_with_masks onePixelMap (by decide) 0 0 (by decide) (by decide)⟩

/-- A type-correct `RegionMap` with `65536` regions on a single pixel:
the pixel belongs to region `65536`, whose 0-based layer index is
`65535` — the sentinel value. -/
def hugeRegionMap : RegionMap :=
  { width := 1, height := 1, regionCount := 65536, pixelToRegion := fun _ _ => 65536 }

/-- C5, counterexample.  For the `RegionMap` with `65536` regions, the
lookup table's entry for the (in-bounds) pixel `(0, 0)` is the sentinel
`65535`, yet a layer (the one with index `65535`) is opaque there: the
claimed "sentinel iff no layer's mask is opaque" equivalence fails
because the 0-based index of layer `65536` collides with the
`Uint16` sentinel. -/
theorem lookupTable_sentinel_collision :
    (createLayerLookupTable (generateLayers hugeRegionMap) 1 1).data 0 = 65535 ∧
      ∃ L ∈ generateLayers hugeRegionMap, maskOpaqueAtPixel L 0 := by
  have hlen : (generateLayers hugeRegionMap).length = 65536 := generateLayers_length _
  have hk : 65535 < (generateLayers hugeRegionMap).length := by omega
  have hi : (0 : Nat) < hugeRegionMap.width * hugeRegionMap.height := by decide
  have hop : maskOpaqueAtPixel ((generateLayers hugeRegionMap).get ⟨65535, hk⟩) 0 := by
    rw [generateLayers_opaque_iff hugeRegionMap 65535 hk 0 hi]
    decide
  have huniq : ∀ k' (hk' : k' < (generateLayers hugeRegionMap).length),
      (0 : Nat) < 1 * 1 →
      ((generateLayers hugeRegionMap).get ⟨k', hk'⟩).mask.readByte (4 * 0 + 3) = some 255 →
        k' = 65535 := by
    intro k' hk' _ hop'
    have := (generateLayers_opaque_iff hugeRegionMap k' hk' 0 hi).mp hop'
    have h65536 : (65536 : Int) = (k' : Int) + 1 := this
    omega
  have hlast : lastOpaqueIndex 1 1 0 (generateLayers hugeRegionMap) 0 = some (0 + 65535) :=
    lastOpaqueIndex_eq_unique 1 1 0 _ 0 65535 hk ⟨by decide, hop⟩ huniq
  constructor
  · have hdata := createLayerLookupTable_data_of_lastOpaque (generateLayers hugeRegionMap) 1 1 0
      (0 + 65535) hlast
    exact hdata.trans (by norm_num)
  · exact ⟨_, List.get_mem _ _ _, hop⟩

/-! ## Point-to-layer queries (`findLayerAtPoint` / C7) -/

/-- The rounded coordinate pair is out of the `w × h` bounds, or one of
the raw coordinates was NaN. -/
def outOfBoundsOrNaN (w h : Nat) (x y : Option Int) : Bool :=
  match x, y with
  | some xi, some yi => (xi < 0 ∨ (w : Int) ≤ xi ∨ yi < 0 ∨ (h : Int) ≤ yi : Bool)
  | _, _ => true

/-- `findLayerAtPoint(layers, x, y, lookupTable?)` from
`layerGeneration.ts`.  With a lookup table: explicit bounds check
(returning `null`), then O(1) table lookup; a NaN coordinate fails
every bounds comparison, reads `undefined` from the table, compares
unequal to the sentinel and indexes `layers` with `undefined`, so the
trailing `|| null` also yields `null` — modeled directly as `none`.
Without a table: scan the layers for one whose mask alpha is `255` at
the flat index `(y * mask.width + x) * 4 + 3`, with no bounds check
(an out-of-range read is `undefined`, never equal to `255`; a NaN
index likewise). -/
def findLayerAtPoint (layers : List DrawingLayer) (x y : Option Int)
    (lookupTable : Option LayerLookupTable) : Option DrawingLayer :=
  match lookupTable with
  | some lut =>
    match x, y with
    | some xi, some yi =>
        if xi < 0 ∨ (lut.width : Int) ≤ xi ∨ yi < 0 ∨ (lut.height : Int) ≤ yi then none
        else
          let linearIdx := yi.toNat * lut.width + xi.toNat
          let layerIndex := lut.data linearIdx
          if layerIndex = 65535 then none
          else layers.get? layerIndex
    | _, _ => none
  | none =>
    layers.find? fun layer =>
      match x, y with
      | some xi, some yi =>
          (layer.mask.readByte ((yi * (layer.mask.width : Int) + xi) * 4 + 3)
            = some 255 : Bool)
      | _, _ => false

/-- A 2 × 2 map whose only region pixel is `(0, 1)`: its flat pixel
index `2` is exactly what the unchecked flat index of the out-of-bounds
coordinate `(2, 0)` aliases to. -/
def aliasMap : RegionMap :=
  { width := 2, height := 2, regionCount := 1,
    pixelToRegion := fun y x => if y = 1 ∧ x = 0 then 1 else -1 }

/-- C7, counterexample.  Querying the out-of-bounds coordinate
`(2, 0)` (x = width) of the layers generated from `aliasMap` *without*
a lookup table returns a layer instead of none: the fallback mask probe
does no bounds check, and the flat index `(0·2 + 2)·4 + 3` aliases the
in-bounds pixel `(0, 1)`, which is opaque in the region's mask. -/
theorem findLayerAtPoint_fallback_aliases :
    (aliasMap.width : Int) ≤ 2 ∧
      (findLayerAtPoint (generateLayers aliasMap) (some 2) (some 0) none).isSome = true := by
  constructor
  · decide
  · decide

/-- C7, amended.  `getRegionAt` returns `0` on out-of-bounds or NaN
coordinates, and `findLayerAtPoint` with a lookup table returns none on
out-of-bounds or NaN coordinates; without a lookup table,
`findLayerAtPoint` returns none on NaN coordinates (neither operation
throws), but performs no bounds check, so an out-of-bounds coordinate
whose flat index aliases an in-bounds opaque mask pixel can resolve to
a layer. -/
theorem oob_nan_queries_return_nothing :
    (∀ (m : RegionMap) (x y : Option Int),
        outOfBoundsOrNaN m.width m.height x y = true → getRegionAt m x y = 0) ∧
    (∀ (layers : List DrawingLayer) (lut : LayerLookupTable) (x y : Option Int),
        outOfBoundsOrNaN lut.width lut.height x y = true →
          findLayerAtPoint layers x y (some lut) = none) ∧
    (∀ (layers : List DrawingLayer) (y : Option Int),
        findLayerAtPoint layers none y none = none) ∧
    (∀ (layers : List DrawingLayer) (x : Option Int),
        findLayerAtPoint layers x none none = none) := by
  refine ⟨?_, ?_, ?_, ?_⟩
  · intro m x y h
    match x, y with
    | some xi, some yi =>
        unfold outOfBoundsOrNaN at h
        rw [decide_eq_true_eq] at h
        show (if xi < 0 ∨ (m.width : Int) ≤ xi ∨ yi < 0 ∨ (m.height : Int) ≤ yi then 0
          else m.pixelToRegion yi.toNat xi.toNat) = 0
        rw [if_pos h]
    | some xi, none => rfl
    | none, some yi => rfl
    | none, none => rfl
  · intro layers lut x y h
    match x, y with
    | some xi, some yi =>
        unfold outOfBoundsOrNaN at h
        rw [decide_eq_true_eq] at h
        show (if xi < 0 ∨ (lut.width : Int) ≤ xi ∨ yi < 0 ∨ (lut.height : Int) ≤ yi then none
          else
            let linearIdx := yi.toNat * lut.width + xi.toNat
            let layerIndex := lut.data linearIdx
            if layerIndex = 65535 then none else layers.get? layerIndex) = none
        rw [if_pos h]
    | some xi, none => rfl
    | none, some yi => rfl
    | none, none => rfl
  · intro layers y
    unfold findLayerAtPoint
    apply List.find?_eq_none.mpr
    intro layer _
    cases y <;> simp
  · intro layers x
    unfold findLayerAtPoint
    apply List.find?_eq_none.mpr
    intro layer _
    cases x <;> simp

/-- A tiny concrete lookup table (1 × 1, all sentinel). -/
def tinyLookupTable : LayerLookupTable :=
  { width := 1, height := 1, data := fun _ => 65535 }

/-- C7, witness: concrete out-of-bounds and NaN queries all return the
"no region" / "no layer" answers. -/
theorem oob_nan_queries_return_nothing_witness :
    outOfBoundsOrNaN twoRegionMap.width twoRegionMap.height (some 5) (some 0) = true ∧
      getRegionAt twoRegionMap (some 5) (some 0) = 0 ∧
      outOfBoundsOrNaN tinyLookupTable.width tinyLookupTable.height (some (-1)) (some 0)
        = true ∧
      findLayerAtPoint (generateLayers aliasMap) (some (-1)) (some 0)
        (some tinyLookupTable) = none ∧
      findLayerAtPoint (generateLayers aliasMap) none (some 3) none = none ∧
      findLayerAtPoint (generateLayers aliasMap) (some 0) none none = none :=
  ⟨by decide,
   oob_nan_queries_return_nothing.1 twoRegionMap (some 5) (some 0) (by decide),
   by decide,
   oob_nan_queries_return_nothing.2.1 (generateLayers aliasMap) tinyLookupTable
     (some (-1)) (some 0) (by decide),
   oob_nan_queries_return_nothing.2.2.1 (generateLayers aliasMap) (some 3),
   oob_nan_queries_return_nothing.2.2.2 (generateLayers aliasMap) (some 0)⟩

/-! ## Stroke continuity: sampled path segmentation (part_005 / C3) -/

/-- The sampling loop of `handlePointerMove` (long-distance branch): the
path from the last committed point (sample `0`) to the current point
(sample `steps`) is sampled at `i = 0 .. steps`; maximal contiguous
runs of in-region samples are accumulated as independent segments,
recorded as pairs of sample indices.  `segmentStart` begins as sample
`0` (the last committed point); an out-of-region sample closes an open
run at the previous sample (`Math.max(0, i-1)/steps`, i.e. index
`i - 1` under truncated subtraction); an in-region sample with no open
run re-opens one at the current sample; after the loop a still-open run
is closed at the final sample (`coords`, i.e. sample `steps`).
`count` is the number of loop iterations left, so `i + count =
steps + 1` throughout. -/
def segGo (inR : Nat → Bool) (steps : Nat) : Nat → Nat → Option Nat → List (Nat × Nat) →
    List (Nat × Nat)
  | _, 0, segmentStart, acc =>
      match segmentStart with
      | some s => acc ++ [(s, steps)]
      | none => acc
  | i, count + 1, segmentStart, acc =>
      if inR i then
        match segmentStart with
        | some _ => segGo inR steps (i + 1) count segmentStart acc
        | none => segGo inR steps (i + 1) count (some i) acc
      else
        match segmentStart with
        | some s => segGo inR steps (i + 1) count none (acc ++ [(s, i - 1)])
        | none => segGo inR steps (i + 1) count none acc

/-- The segments drawn by one long-distance `handlePointerMove` with
`steps` subdivision steps, where `inR i` classifies sample `i` (via
`getRegionAtWithTolerance` against the locked region). -/
def collectSegments (inR : Nat → Bool) (steps : Nat) : List (Nat × Nat) :=
  segGo inR steps 0 (steps + 1) (some 0) []

/-- A drawn segment is a closed in-region run: its samples are all in
the region, it ends either at the final sample or right before an
out-of-region sample (ink stops at the last in-region sample), and it
starts either at the path start or right after an out-of-region sample
(a re-entry sample). -/
def segClosedRun (inR : Nat → Bool) (steps : Nat) (seg : Nat × Nat) : Prop :=
  seg.1 ≤ seg.2 ∧ seg.2 ≤ steps ∧
  (∀ j, seg.1 ≤ j → j ≤ seg.2 → inR j = true) ∧
  (seg.2 = steps ∨ inR (seg.2 + 1) = false) ∧
  (seg.1 = 0 ∨ inR (seg.1 - 1) = false)

/-- One-step unfolding of the sampling loop. -/
theorem segGo_succ (inR : Nat → Bool) (steps i count : Nat) (segStart : Option Nat)
    (acc : List (Nat × Nat)) :
    segGo inR steps i (count + 1) segStart acc =
      if inR i then
        match segStart with
        | some _ => segGo inR steps (i + 1) count segStart acc
        | none => segGo inR steps (i + 1) count (some i) acc
      else
        match segStart with
        | some s => segGo inR steps (i + 1) count none (acc ++ [(s, i - 1)])
        | none => segGo inR steps (i + 1) count none acc := rfl

/-- Invariant-carrying specification of the sampling loop. -/
theorem segGo_spec (inR : Nat → Bool) (steps : Nat) :
    ∀ (count i : Nat) (segStart : Option Nat) (acc : List (Nat × Nat)),
      i + count = steps + 1 →
      (∀ seg ∈ acc, segClosedRun inR steps seg) →
      (∀ s, segStart = some s →
        (s < i ∨ (i = 0 ∧ s = 0 ∧ inR 0 = true)) ∧
        (∀ j, s ≤ j → j < i → inR j = true) ∧
        (s = 0 ∨ inR (s - 1) = false)) →
      (segStart = none → i = 0 ∨ inR (i - 1) = false) →
      (∀ j, j < i → inR j = true →
        (∃ seg ∈ acc, seg.1 ≤ j ∧ j ≤ seg.2) ∨ (∃ s, segStart = some s ∧ s ≤ j)) →
      (∀ seg ∈ segGo inR steps i count segStart acc, segClosedRun inR steps seg) ∧
      (∀ j, j ≤ steps → inR j = true →
        ∃ seg ∈ segGo inR steps i count segStart acc, seg.1 ≤ j ∧ j ≤ seg.2) := by
  intro count
  induction count with
  | zero =>
      intro i segStart acc hcount hacc hsome hnone hcover
      have hi : i = steps + 1 := by omega
      cases segStart with
      | none =>
          show (∀ seg ∈ acc, _) ∧ _
          refine ⟨hacc, ?_⟩
          intro j hj hinj
          rcases hcover j (by omega) hinj with ⟨seg, hmem, hc⟩ | ⟨s, hs, _⟩
          · exact ⟨seg, hmem, hc⟩
          · exact absurd hs (by simp)
      | some s =>
          obtain ⟨hsl, hrun, hreent⟩ := hsome s rfl
          have hslt : s < i := by omega
          show (∀ seg ∈ acc ++ [(s, steps)], _) ∧ _
          constructor
          · intro seg hseg
            rcases List.mem_append.mp hseg with h | h
            · exact hacc seg h
            · rw [List.mem_singleton] at h
              subst h
              refine ⟨by omega, le_refl _, ?_, Or.inl rfl, hreent⟩
              intro j hj1 hj2
              exact hrun j hj1 (by omega)
          · intro j hj hinj
            rcases hcover j (by omega) hinj with ⟨seg, hmem, hc⟩ | ⟨s', hs', hsj⟩
            · exact ⟨seg, List.mem_append_left _ hmem, hc⟩
            · rw [Option.some.injEq] at hs'
              subst hs'
              exact ⟨(s, steps), List.mem_append_right _ (List.mem_singleton.mpr rfl),
                hsj, hj⟩
  | succ count ih =>
      intro i segStart acc hcount hacc hsome hnone hcover
      rw [segGo_succ]
      by_cases hin : inR i = true
      · rw [if_pos hin]
        cases segStart with
        | some s =>
            obtain ⟨hsl, hrun, hreent⟩ := hsome s rfl
            apply ih (i + 1) (some s) acc (by omega) hacc
            · intro s' hs'
              rw [Option.some.injEq] at hs'
              subst hs'
              refine ⟨by omega, ?_, hreent⟩
              intro j hj1 hj2
              rcases Nat.lt_succ_iff_lt_or_eq.mp hj2 with h | h
              · exact hrun j hj1 h
              · rw [h]; exact hin
            · intro h; exact absurd h (by simp)
            · intro j hj hinj
              rcases Nat.lt_succ_iff_lt_or_eq.mp hj with h | h
              · rcases hcover j h hinj with ⟨seg, hmem, hc⟩ | ⟨s', hs', hsj⟩
                · exact Or.inl ⟨seg, hmem, hc⟩
                · exact Or.inr ⟨s', hs', hsj⟩
              · subst h
                exact Or.inr ⟨s, rfl, by omega⟩
        | none =>
            apply ih (i + 1) (some i) acc (by omega) hacc
            · intro s' hs'
              rw [Option.some.injEq] at hs'
              subst hs'
              refine ⟨by omega, ?_, ?_⟩
              · intro j hj1 hj2
                have hji : j = i := by omega
                rw [hji]; exact hin
              · rcases hnone rfl with h | h
                · exact Or.inl h
                · rcases Nat.eq_zero_or_pos i with h0 | h0
                  · exact Or.inl h0
                  · exact Or.inr h
            · intro h; exact absurd h (by simp)
            · intro j hj hinj
              rcases Nat.lt_succ_iff_lt_or_eq.mp hj with h | h
              · rcases hcover j h hinj with ⟨seg, hmem, hc⟩ | ⟨s', hs', _⟩
                · exact Or.inl ⟨seg, hmem, hc⟩
                · exact absurd hs' (by simp)
              · subst h
                exact Or.inr ⟨j, rfl, le_refl j⟩
      · rw [if_neg hin]
        rw [Bool.not_eq_true] at hin
        cases segStart with
        | some s =>
            obtain ⟨hsl, hrun, hreent⟩ := hsome s rfl
            have hipos : 0 < i := by
              rcases hsl with h | ⟨h0, hs0, hr0⟩
              · omega
              · rw [h0] at hin
                rw [hr0] at hin
                exact absurd hin (by simp)
            have hslt : s < i := by
              rcases hsl with h | ⟨h0, _, _⟩
              · exact h
              · omega
            apply ih (i + 1) none (acc ++ [(s, i - 1)]) (by omega)
            · intro seg hseg
              rcases List.mem_append.mp hseg with h | h
              · exact hacc seg h
              · rw [List.mem_singleton] at h
                subst h
                refine ⟨by omega, by omega, ?_, ?_, hreent⟩
                · intro j hj1 hj2
                  exact hrun j hj1 (by omega)
                · right
                  rw [show i - 1 + 1 = i by omega]
                  exact hin
            · intro s' hs'
              exact absurd hs' (by simp)
            · intro _
              right
              rw [Nat.add_sub_cancel]
              exact hin
            · intro j hj hinj
              rcases Nat.lt_succ_iff_lt_or_eq.mp hj with h | h
              · rcases hcover j h hinj with ⟨seg, hmem, hc⟩ | ⟨s', hs', hsj⟩
                · exact Or.inl ⟨seg, List.mem_append_left _ hmem, hc⟩
                · rw [Option.some.injEq] at hs'
                  subst hs'
                  exact Or.inl ⟨(s, i - 1), List.mem_append_right _
                    (List.mem_singleton.mpr rfl), hsj, by omega⟩
              · subst h
                rw [hinj] at hin
                exact absurd hin (by simp)
        | none =>
            apply ih (i + 1) none acc (by omega) hacc
            · intro s' hs'
              exact absurd hs' (by simp)
            · intro _
              right
              rw [Nat.add_sub_cancel]
              exact hin
            · intro j hj hinj
              rcases Nat.lt_succ_iff_lt_or_eq.mp hj with h | h
              · rcases hcover j h hinj with ⟨seg, hmem, hc⟩ | ⟨s', hs', _⟩
                · exact Or.inl ⟨seg, hmem, hc⟩
                · exact absurd hs' (by simp)
              · subst h
                rw [hinj] at hin
                exact absurd hin (by simp)

/-- Sample classification of `handlePointerMove` (part_005): a sampled
point counts as in-region iff `getRegionAtWithTolerance` with tolerance
`4` resolves it to the locked region id. -/
def sampleInRegion (m : RegionMap) (lockedRegionId : Int)
    (samplePt : Nat → Option Int × Option Int) (j : Nat) : Bool :=
  (getRegionAtWithTolerance m (samplePt j).1 (samplePt j).2 lockedRegionId 4
    = lockedRegionId : Bool)

/-- C3.  While a stroke is locked to a region, a long input-move is
sampled from the last committed point (sample `0`, which resolved to
the locked region when it was committed) to the current point; the ink
is drawn as independent segments, each a maximal run of in-region
samples: every drawn segment contains only in-region samples (so no ink
is rendered on the gap between leaving and re-entering the region),
each run is closed at the last in-region sample before an
out-of-region sample (or at the final sample), a new segment begins at
the re-entry sample (its start is sample `0` or is preceded by an
out-of-region sample), and every in-region sample is covered by a
segment. -/
theorem stroke_sampling_draws_independent_runs (m : RegionMap) (lockedRegionId : Int)
    (samplePt : Nat → Option Int × Option Int) (steps : Nat)
    (h0 : sampleInRegion m lockedRegionId samplePt 0 = true) :
    (∀ seg ∈ collectSegments (sampleInRegion m lockedRegionId samplePt) steps,
        segClosedRun (sampleInRegion m lockedRegionId samplePt) steps seg) ∧
    (∀ j, j ≤ steps → sampleInRegion m lockedRegionId samplePt j = true →
        ∃ seg ∈ collectSegments (sampleInRegion m lockedRegionId samplePt) steps,
          seg.1 ≤ j ∧ j ≤ seg.2) := by
  unfold collectSegments
  apply segGo_spec (sampleInRegion m lockedRegionId samplePt) steps (steps + 1) 0 (some 0) []
    (by omega) (by simp)
  · intro s hs
    rw [Option.some.injEq] at hs
    subst hs
    refine ⟨Or.inr ⟨rfl, rfl, h0⟩, ?_, Or.inl rfl⟩
    intro j _ hj
    exact absurd hj (Nat.not_lt_zero j)
  · intro h
    exact absurd h (by simp)
  · intro j hj
    exact absurd hj (Nat.not_lt_zero j)

/-- A sample path for the witness: sample `0` at the region pixel,
samples `1` and `2` far outside, sample `3` back at the region pixel. -/
def samplePath : Nat → Option Int × Option Int :=
  fun j => if j = 0 ∨ j = 3 then (some 0, some 0) else (some 5, some 5)

/-- C3, witness: on the concrete one-pixel map with a path that leaves
and re-enters the region, sample `0` is in-region and the theorem
yields the run decomposition. -/
theorem stroke_sampling_draws_independent_runs_witness :
    sampleInRegion onePixelMap 1 samplePath 0 = true ∧
      ((∀ seg ∈ collectSegments (sampleInRegion onePixelMap 1 samplePath) 3,
          segClosedRun (sampleInRegion onePixelMap 1 samplePath) 3 seg) ∧
      (∀ j, j ≤ 3 → sampleInRegion onePixelMap 1 samplePath j = true →
          ∃ seg ∈ collectSegments (sampleInRegion onePixelMap 1 samplePath) 3,
            seg.1 ≤ j ∧ j ≤ seg.2)) :=
  ⟨by decide,
   stroke_sampling_draws_independent_runs onePixelMap 1 samplePath 3 (by decide)⟩

/-! ## History manager and pointer-down debounce (`Canvas.tsx` / C4, C9, C10) -/

/-- The history-relevant state of the `Canvas` component: the current
pixel content of the `n` layer surfaces (polymorphic in the surface
representation `σ`; `getImageData`/`putImageData` copies are value
semantics here), the undo and redo stacks of full snapshots (each
snapshot maps every layer to a copy of its surface — `captureState`
always captures all layers, so a snapshot is total), and the
once-per-gesture capture flag `hasStateCapturedRef`. -/
structure CanvasHistory (n : Nat) (σ : Type) where
  surfaces : Fin n → σ
  undoStack : List (Fin n → σ)
  redoStack : List (Fin n → σ)
  hasStateCaptured : Bool

/-- `captureState()`: a full copy of every layer's current surface. -/
def captureState {n : Nat} {σ : Type} (h : CanvasHistory n σ) : Fin n → σ :=
  h.surfaces

/-- `restoreState(state)`: write the snapshot back onto every layer
(snapshots produced by `captureState` contain every layer id). -/
def restoreState {n : Nat} {σ : Type} (state : Fin n → σ) (h : CanvasHistory n σ) :
    CanvasHistory n σ :=
  { h with surfaces := state }

/-- `undo()`: no-op on an empty undo stack; otherwise push the current
state onto the redo stack, then pop and restore the top undo
snapshot. -/
def undo {n : Nat} {σ : Type} (h : CanvasHistory n σ) : CanvasHistory n σ :=
  match h.undoStack with
  | [] => h
  | stateToRestore :: rest =>
      restoreState stateToRestore
        { h with undoStack := rest, redoStack := captureState h :: h.redoStack }

/-- `redo()`: symmetric to `undo`, using the redo stack. -/
def redo {n : Nat} {σ : Type} (h : CanvasHistory n σ) : CanvasHistory n σ :=
  match h.redoStack with
  | [] => h
  | stateToRestore :: rest =>
      restoreState stateToRestore
        { h with redoStack := rest, undoStack := captureState h :: h.undoStack }

/-- `clear()`: push the current state onto the undo stack, empty the
redo stack, and reset every layer's surface to its mask-only initial
appearance (`resetSurfaces`). -/
def clearCanvas {n : Nat} {σ : Type} (resetSurfaces : Fin n → σ) (h : CanvasHistory n σ) :
    CanvasHistory n σ :=
  { surfaces := resetSurfaces, undoStack := captureState h :: h.undoStack,
    redoStack := [], hasStateCaptured := h.hasStateCaptured }

/-- The state-capture step of `handlePointerDown`: capture a snapshot
before drawing, at most once per gesture (`hasStateCapturedRef`),
pushing it to the undo stack and clearing the redo stack. -/
def beginStrokeCapture {n : Nat} {σ : Type} (h : CanvasHistory n σ) : CanvasHistory n σ :=
  if h.hasStateCaptured then h
  else
    { h with undoStack := captureState h :: h.undoStack, redoStack := [],
             hasStateCaptured := true }

/-- An arbitrary drawing mutation of the layer surfaces (dots and
segments drawn during the gesture). -/
def draw {n : Nat} {σ : Type} (f : (Fin n → σ) → Fin n → σ) (h : CanvasHistory n σ) :
    CanvasHistory n σ :=
  { h with surfaces := f h.surfaces }

/-- `handlePointerUp`: the gesture ends and the capture flag resets. -/
def pointerUp {n : Nat} {σ : Type} (h : CanvasHistory n σ) : CanvasHistory n σ :=
  { h with hasStateCaptured := false }

/-- One full stroke: input-down (capturing the pre-stroke snapshot),
arbitrary drawing, input-up. -/
def stroke {n : Nat} {σ : Type} (f : (Fin n → σ) → Fin n → σ) (h : CanvasHistory n σ) :
    CanvasHistory n σ :=
  pointerUp (draw f (beginStrokeCapture h))

/-- `undo` on an empty undo stack is a no-op. -/
theorem undo_nil {n : Nat} {σ : Type} {h : CanvasHistory n σ} (hu : h.undoStack = []) :
    undo h = h := by
  unfold undo
  rw [hu]

/-- `undo` on a nonempty undo stack pushes the current state to redo
and restores the popped snapshot. -/
theorem undo_cons {n : Nat} {σ : Type} {h : CanvasHistory n σ} {u : Fin n → σ}
    {rest : List (Fin n → σ)} (hu : h.undoStack = u :: rest) :
    undo h = restoreState u
      { h with undoStack := rest, redoStack := captureState h :: h.redoStack } := by
  unfold undo
  rw [hu]

/-- `redo` on an empty redo stack is a no-op. -/
theorem redo_nil {n : Nat} {σ : Type} {h : CanvasHistory n σ} (hr : h.redoStack = []) :
    redo h = h := by
  unfold redo
  rw [hr]

/-- `redo` on a nonempty redo stack pushes the current state to undo
and restores the popped snapshot. -/
theorem redo_cons {n : Nat} {σ : Type} {h : CanvasHistory n σ} {u : Fin n → σ}
    {rest : List (Fin n → σ)} (hr : h.redoStack = u :: rest) :
    redo h = restoreState u
      { h with redoStack := rest, undoStack := captureState h :: h.undoStack } := by
  unfold redo
  rw [hr]

/-- C4, amended.  With no capture pending (a fresh gesture, so the
stroke's input-down does push its snapshot), a stroke followed by
`undo()` restores every layer surface byte-identically to its
pre-stroke pixels; and from any state with *undo* history,
`undo()` followed by `redo()` restores every layer surface
byte-identically to the state just before the `undo()`. -/
theorem undo_redo_roundtrip {n : Nat} {σ : Type} (h : CanvasHistory n σ)
    (f : (Fin n → σ) → Fin n → σ) :
    (h.hasStateCaptured = false → (undo (stroke f h)).surfaces = h.surfaces) ∧
    (h.undoStack ≠ [] → (redo (undo h)).surfaces = h.surfaces) := by
  constructor
  · intro hcap
    unfold stroke beginStrokeCapture
    rw [hcap]
    simp only [Bool.false_eq_true, if_false]
    rfl
  · intro hne
    match hs : h.undoStack with
    | [] => exact absurd hs hne
    | u :: rest =>
        unfold undo
        split
        · next heq => rw [hs] at heq; exact absurd heq (List.cons_ne_nil u rest)
        · next u' rest' heq => rfl

/-- A concrete state with an empty undo stack but nonempty redo
history: surfaces all `0`, one forward snapshot with surfaces all
`1`. -/
def emptyUndoState : CanvasHistory 1 Nat :=
  { surfaces := fun _ => 0, undoStack := [],
    redoStack := [fun _ => 1], hasStateCaptured := false }

/-- C4, counterexample.  From a state with redo history but empty undo
history (reachable by drawing once and undoing), `undo()` is a no-op
and `redo()` then overwrites the surfaces with the forward snapshot:
`undo(); redo()` does *not* restore the pre-undo surfaces, so the
round-trip claim fails when conditioned on redo history alone. -/
theorem undo_redo_roundtrip_fails_without_undo_history :
    emptyUndoState.redoStack.length = 1 ∧
      emptyUndoState.surfaces 0 = 0 ∧
      (redo (undo emptyUndoState)).surfaces 0 = 1 := by
  refine ⟨rfl, rfl, rfl⟩

/-- C4, witness: a concrete state on which both round-trips hold. -/
theorem undo_redo_roundtrip_witness :
    (emptyUndoState.hasStateCaptured = false ∧
      (undo (stroke (fun s i => s i + 7) emptyUndoState)).surfaces =
        emptyUndoState.surfaces) ∧
    ((clearCanvas (fun _ => 9) emptyUndoState).undoStack ≠ [] ∧
      (redo (undo (clearCanvas (fun _ => 9) emptyUndoState))).surfaces =
        (clearCanvas (fun _ => 9) emptyUndoState).surfaces) :=
  ⟨⟨rfl, (undo_redo_roundtrip emptyUndoState (fun s i => s i + 7)).1 rfl⟩,
   ⟨List.cons_ne_nil _ _,
    (undo_redo_roundtrip (clearCanvas (fun _ => 9) emptyUndoState) (fun s _ => s 0)).2
      (List.cons_ne_nil _ _)⟩⟩

/-- A state with two forward snapshots and no undo history. -/
def twoRedoState (n : Nat) (σ : Type) [Inhabited σ] : CanvasHistory n σ :=
  { surfaces := (fun _ => default), undoStack := [],
    redoStack := [(fun _ => default), (fun _ => default)], hasStateCaptured := false }

/-- C9.  History-stack discipline of the `Canvas` actions:
(a) no single history-affecting action (stroke-begin snapshot, undo,
redo, clear) ever grows both the undo and the redo stack;
(b) among the actions that record a restorable snapshot onto the undo
stack (the stroke-begin snapshot, clear, and redo — the code's `undo`
deliberately records its snapshot onto the *redo* stack instead, per
§4.6 of the specification), forward history is cleared exactly by the
ones that are not themselves a redo: the stroke-begin snapshot and
clear always empty the redo stack, while redo can leave it nonempty;
(c) every user-visible mutating action is preceded by exactly one
snapshot push together with a clear of the redo stack: a fresh
gesture's capture pushes exactly the pre-stroke state and empties the
redo stack, a second capture in the same gesture is a no-op, and clear
pushes exactly the pre-clear state while emptying the redo stack. -/
theorem history_stack_discipline (n : Nat) (σ : Type) [Inhabited σ] :
    (∀ h : CanvasHistory n σ,
      ¬(h.undoStack.length < (beginStrokeCapture h).undoStack.length ∧
        h.redoStack.length < (beginStrokeCapture h).redoStack.length)) ∧
    (∀ h : CanvasHistory n σ,
      ¬(h.undoStack.length < (undo h).undoStack.length ∧
        h.redoStack.length < (undo h).redoStack.length)) ∧
    (∀ h : CanvasHistory n σ,
      ¬(h.undoStack.length < (redo h).undoStack.length ∧
        h.redoStack.length < (redo h).redoStack.length)) ∧
    (∀ (h : CanvasHistory n σ) (reset : Fin n → σ),
      ¬(h.undoStack.length < (clearCanvas reset h).undoStack.length ∧
        h.redoStack.length < (clearCanvas reset h).redoStack.length)) ∧
    (∀ h : CanvasHistory n σ, h.hasStateCaptured = false →
      (beginStrokeCapture h).redoStack = []) ∧
    (∀ (h : CanvasHistory n σ) (reset : Fin n → σ), (clearCanvas reset h).redoStack = []) ∧
    (∃ h : CanvasHistory n σ,
      (redo h).undoStack.length = h.undoStack.length + 1 ∧ (redo h).redoStack ≠ []) ∧
    (∀ (h : CanvasHistory n σ) (f : (Fin n → σ) → Fin n → σ), h.hasStateCaptured = false →
      (beginStrokeCapture h).undoStack = captureState h :: h.undoStack ∧
      (beginStrokeCapture h).redoStack = [] ∧
      beginStrokeCapture (beginStrokeCapture h) = beginStrokeCapture h ∧
      (stroke f h).undoStack = captureState h :: h.undoStack) ∧
    (∀ (h : CanvasHistory n σ) (reset : Fin n → σ),
      (clearCanvas reset h).undoStack = captureState h :: h.undoStack) := by
  refine ⟨?_, ?_, ?_, ?_, ?_, ?_, ?_, ?_, ?_⟩
  · intro h hboth
    unfold beginStrokeCapture at hboth
    by_cases hc : h.hasStateCaptured
    · rw [if_pos hc] at hboth
      omega
    · rw [if_neg hc] at hboth
      simp only [List.length_nil] at hboth
      omega
  · intro h hboth
    rcases hu : h.undoStack with _ | ⟨u, rest⟩
    · rw [undo_nil hu] at hboth
      omega
    · rw [undo_cons hu] at hboth
      simp only [restoreState, List.length_cons, hu] at hboth
      omega
  · intro h hboth
    rcases hr : h.redoStack with _ | ⟨u, rest⟩
    · rw [redo_nil hr] at hboth
      omega
    · rw [redo_cons hr] at hboth
      simp only [restoreState, List.length_cons, hr] at hboth
      omega
  · intro h reset hboth
    unfold clearCanvas at hboth
    simp only [List.length_nil] at hboth
    omega
  · intro h hc
    unfold beginStrokeCapture
    rw [hc]
    simp
  · intro h reset
    rfl
  · refine ⟨twoRedoState n σ, ?_, ?_⟩
    · rfl
    · exact List.cons_ne_nil _ _
  · intro h f hc
    have hpush : beginStrokeCapture h =
        { h with undoStack := captureState h :: h.undoStack, redoStack := [],
                 hasStateCaptured := true } := by
      unfold beginStrokeCapture
      rw [hc]
      simp
    refine ⟨?_, ?_, ?_, ?_⟩
    · rw [hpush]
    · rw [hpush]
    · rw [hpush]
      unfold beginStrokeCapture
      simp
    · show (pointerUp (draw f (beginStrokeCapture h))).undoStack
        = captureState h :: h.undoStack
      rw [hpush]
      rfl
  · intro h reset
    rfl

/-- C9, witness: the discipline instantiated at a concrete state. -/
theorem history_stack_discipline_witness :
    (emptyUndoState.hasStateCaptured = false ∧
      (beginStrokeCapture emptyUndoState).redoStack = []) ∧
    ¬(emptyUndoState.undoStack.length < (undo emptyUndoState).undoStack.length ∧
      emptyUndoState.redoStack.length < (undo emptyUndoState).redoStack.length) ∧
    (beginStrokeCapture emptyUndoState).undoStack =
      captureState emptyUndoState :: emptyUndoState.undoStack :=
  ⟨⟨rfl, (history_stack_discipline 1 Nat).2.2.2.2.1 emptyUndoState rfl⟩,
   (history_stack_discipline 1 Nat).2.1 emptyUndoState,
   ((history_stack_discipline 1 Nat).2.2.2.2.2.2.2.1 emptyUndoState (fun s _ => s 0) rfl).1⟩

/-- The debounce-relevant input state of the `Canvas` component:
`lastEventTimeRef` plus the drawing/history state mutated by the rest
of `handlePointerDown`. -/
structure CanvasInputState (n : Nat) (σ : Type) where
  lastEventTime : Int
  hist : CanvasHistory n σ

/-- `handlePointerDown` as seen by the debounce gate: if the event
arrives less than 50 ms after the previously accepted input-down it
returns immediately (before any layer targeting, snapshot capture, or
drawing — `body` abstracts everything the handler does after the gate);
otherwise `lastEventTimeRef` is set to the event time and the rest of
the handler runs. -/
def handlePointerDown {n : Nat} {σ : Type} (now : Int)
    (body : CanvasHistory n σ → CanvasHistory n σ) (s : CanvasInputState n σ) :
    CanvasInputState n σ :=
  if now - s.lastEventTime < 50 then s
  else { lastEventTime := now, hist := body s.hist }

/-- C10.  An input-down arriving less than 50 ms after the previously
accepted input-down is discarded entirely — it draws nothing, captures
no history snapshot, changes no drawing state, and does not even update
the debounce clock (so the next event is still measured against the
previously accepted one).  The gate inspects only the timestamp, so
this holds regardless of which event channel delivered the event or
whether it is a genuine new tap; an event at or beyond 50 ms is
accepted: the clock moves to its time and the handler body runs. -/
theorem pointerDown_debounce {n : Nat} {σ : Type} (now : Int)
    (body : CanvasHistory n σ → CanvasHistory n σ) (s : CanvasInputState n σ) :
    (now - s.lastEventTime < 50 → handlePointerDown now body s = s) ∧
    (¬(now - s.lastEventTime < 50) →
      (handlePointerDown now body s).lastEventTime = now ∧
      (handlePointerDown now body s).hist = body s.hist) := by
  constructor
  · intro hlt
    unfold handlePointerDown
    rw [if_pos hlt]
  · intro hge
    unfold handlePointerDown
    rw [if_neg hge]
    exact ⟨rfl, rfl⟩

/-- C10, witness: a concrete rejected event (20 ms after the previous
accepted one) and a concrete accepted event (60 ms after). -/
theorem pointerDown_debounce_witness :
    ((120 : Int) - 100 < 50 ∧
      handlePointerDown 120 (fun h => beginStrokeCapture h)
        ({ lastEventTime := 100, hist := emptyUndoState } : CanvasInputState 1 Nat) =
        { lastEventTime := 100, hist := emptyUndoState }) ∧
    (¬((160 : Int) - 100 < 50) ∧
      (handlePointerDown 160 (fun h => beginStrokeCapture h)
        ({ lastEventTime := 100, hist := emptyUndoState } : CanvasInputState 1 Nat)).hist =
        beginStrokeCapture emptyUndoState) :=
  ⟨⟨by decide,
    (pointerDown_debounce 120 (fun h => beginStrokeCapture h)
      { lastEventTime := 100, hist := emptyUndoState }).1 (by decide)⟩,
   ⟨by decide,
    ((pointerDown_debounce 160 (fun h => beginStrokeCapture h)
      { lastEventTime := 100, hist := emptyUndoState }).2 (by decide)).2⟩⟩

/-- C8, amended.  Calling `detectRegions` without explicit optional
arguments uses boundary threshold `128` and minimum region size `10`
(the declared defaults of `regionDetection.ts`); the 100-pixel minimum
of the spec is passed explicitly by the caller `processImage`, not
defaulted. -/
theorem detectRegionsDefaults_eq (img : ImageDataM) :
    detectRegionsDefaults img = detectRegions img 128 10 := rfl

/-! ## Noise filtering (`detectRegions` / C6)

The claim is about maximal 4-connected areas of non-boundary pixels.
We formalize the area of a pixel `p` as the set of pixels reachable
from `p` through in-bounds pixels whose `initialGrid` value is `0`
(i.e. non-boundary pixels), via 4-adjacency steps, and prove that the
raster scan of `detectRegions` relabels every small area wholly to `-1`
while `regionCount` ends up equal to the number of large areas. -/

/-- `(x, y)` lies on the `w × h` canvas. -/
def validPos (w h : Nat) (p : Nat × Nat) : Prop :=
  p.1 < w ∧ p.2 < h

instance (w h : Nat) (p : Nat × Nat) : Decidable (validPos w h p) := by
  unfold validPos; infer_instance

/-- 4-adjacency of canvas pixels. -/
def adjPix (p q : Nat × Nat) : Prop :=
  (q.1 = p.1 + 1 ∧ q.2 = p.2) ∨ (q.1 + 1 = p.1 ∧ q.2 = p.2) ∨
  (q.1 = p.1 ∧ q.2 = p.2 + 1) ∨ (q.1 = p.1 ∧ q.2 + 1 = p.2)

instance (p q : Nat × Nat) : Decidable (adjPix p q) := by
  unfold adjPix; infer_instance

theorem adjPix_symm {p q : Nat × Nat} (h : adjPix p q) : adjPix q p := by
  unfold adjPix at h ⊢
  omega

/-- One reachability step through the `0`-cells of a grid: move to a
4-neighbor that is in bounds and still `0`. -/
def zstep (w h : Nat) (g : Nat → Nat → Int) (p q : Nat × Nat) : Prop :=
  adjPix p q ∧ validPos w h q ∧ g q.2 q.1 = 0

/-- Reachability through the `0`-cells of a grid (the 4-connected area
of the start pixel when the start itself is a `0`-cell). -/
def zreach (w h : Nat) (g : Nat → Nat → Int) (p q : Nat × Nat) : Prop :=
  Relation.ReflTransGen (zstep w h g) p q

theorem zreach_refl (w h : Nat) (g : Nat → Nat → Int) (p : Nat × Nat) :
    zreach w h g p p := Relation.ReflTransGen.refl

/-- Everything reachable from `p` is `p` itself or a valid `0`-cell. -/
theorem zreach_target {w h : Nat} {g : Nat → Nat → Int} {p q : Nat × Nat}
    (hr : zreach w h g p q) : q = p ∨ (validPos w h q ∧ g q.2 q.1 = 0) := by
  induction hr with
  | refl => exact Or.inl rfl
  | tail _ hstep _ => exact Or.inr ⟨hstep.2.1, hstep.2.2⟩

/-- From a valid `0`-cell, reachability is symmetric. -/
theorem zreach_symm {w h : Nat} {g : Nat → Nat → Int} {p q : Nat × Nat}
    (hp : validPos w h p) (hp0 : g p.2 p.1 = 0) (hr : zreach w h g p q) :
    zreach w h g q p := by
  induction hr with
  | refl => exact Relation.ReflTransGen.refl
  | tail hchain hstep ih =>
      rename_i b c
      have hb : b = p ∨ (validPos w h b ∧ g b.2 b.1 = 0) := zreach_target hchain
      have hstep' : zstep w h g c b := by
        refine ⟨adjPix_symm hstep.1, ?_, ?_⟩
        · rcases hb with rfl | ⟨hv, _⟩
          · exact hp
          · exact hv
        · rcases hb with rfl | ⟨_, h0⟩
          · exact hp0
          · exact h0
      exact Relation.ReflTransGen.trans (Relation.ReflTransGen.single hstep') ih

theorem zreach_trans {w h : Nat} {g : Nat → Nat → Int} {p q r : Nat × Nat}
    (h1 : zreach w h g p q) (h2 : zreach w h g q r) : zreach w h g p r :=
  Relation.ReflTransGen.trans h1 h2

/-- An integer coordinate pair lies on the `w × h` canvas. -/
def inBoundsI (w h : Nat) (c : Int × Int) : Prop :=
  0 ≤ c.1 ∧ c.1 < (w : Int) ∧ 0 ≤ c.2 ∧ c.2 < (h : Int)

instance (w h : Nat) (c : Int × Int) : Decidable (inBoundsI w h c) := by
  unfold inBoundsI; infer_instance

/-- `c` is one of the four stack pushes of pixel `p`. -/
def adjI (p : Nat × Nat) (c : Int × Int) : Prop :=
  c = ((p.1 : Int) + 1, (p.2 : Int)) ∨ c = ((p.1 : Int) - 1, (p.2 : Int)) ∨
  c = ((p.1 : Int), (p.2 : Int) + 1) ∨ c = ((p.1 : Int), (p.2 : Int) - 1)

theorem adjI_of_adjPix {p q : Nat × Nat} (ha : adjPix p q) :
    adjI p ((q.1 : Int), (q.2 : Int)) := by
  rcases q with ⟨qx, qy⟩
  rcases p with ⟨px, py⟩
  unfold adjPix at ha
  unfold adjI
  simp only [Prod.mk.injEq]
  omega

theorem adjPix_of_adjI {w h : Nat} {p : Nat × Nat} {c : Int × Int} (ha : adjI p c)
    (hb : inBoundsI w h c) :
    adjPix p (c.1.toNat, c.2.toNat) ∧ validPos w h (c.1.toNat, c.2.toNat) := by
  rcases c with ⟨cx, cy⟩
  rcases p with ⟨px, py⟩
  unfold adjI at ha
  unfold inBoundsI at hb
  simp only [Prod.mk.injEq] at ha
  unfold adjPix validPos
  simp only at hb ⊢
  omega

/-- The canvas coordinates as a finite set of integer pairs. -/
def boxI (w h : Nat) : Finset (Int × Int) :=
  (Finset.range w ×ˢ Finset.range h).image fun p => ((p.1 : Int), (p.2 : Int))

theorem mem_boxI {w h : Nat} {c : Int × Int} : c ∈ boxI w h ↔ inBoundsI w h c := by
  unfold boxI inBoundsI
  rw [Finset.mem_image]
  constructor
  · rintro ⟨⟨a, b⟩, hab, rfl⟩
    rw [Finset.mem_product, Finset.mem_range, Finset.mem_range] at hab
    simp only
    omega
  · rintro ⟨h1, h2, h3, h4⟩
    refine ⟨(c.1.toNat, c.2.toNat), ?_, ?_⟩
    · rw [Finset.mem_product, Finset.mem_range, Finset.mem_range]
      constructor <;> omega
    · rcases c with ⟨cx, cy⟩
      simp only [Prod.mk.injEq]
      omega

/-- The termination measure of the flood-fill loop: five units per
unvisited canvas coordinate plus one per stack entry.  Every loop
iteration strictly decreases it. -/
def ffMeasure (w h : Nat) (st : FFState) : Nat :=
  5 * ((boxI w h) \ st.visited).card + st.stack.length

/-- Loop invariant of `ffLoop`, relative to the grid `g0` at call time,
the start pixel `s`, and the region id being painted. -/
structure FFInv (w h : Nat) (g0 : Nat → Nat → Int) (s : Nat × Nat) (regionId : Int)
    (st : FFState) : Prop where
  nodup : st.pixels.Nodup
  pixVis : ∀ p ∈ st.pixels, ((p.1 : Int), (p.2 : Int)) ∈ st.visited
  visValid : ∀ c ∈ st.visited, inBoundsI w h c
  visPix : ∀ c ∈ st.visited, g0 c.2.toNat c.1.toNat = 0 → (c.1.toNat, c.2.toNat) ∈ st.pixels
  gridChar : ∀ y x, st.grid y x = if (x, y) ∈ st.pixels then regionId else g0 y x
  pixReach : ∀ p ∈ st.pixels, zreach w h g0 s p
  stackSrc : ∀ c ∈ st.stack, c = ((s.1 : Int), (s.2 : Int)) ∨ ∃ p ∈ st.pixels, adjI p c
  closure : ∀ p ∈ st.pixels, ∀ c : Int × Int, adjI p c → inBoundsI w h c →
      c ∈ st.visited ∨ c ∈ st.stack
  start : ((s.1 : Int), (s.2 : Int)) ∈ st.visited ∨ ((s.1 : Int), (s.2 : Int)) ∈ st.stack

/-- One-step unfolding of the flood-fill loop on a nonempty stack. -/
theorem ffLoop_cons (w h : Nat) (regionId : Int) (fuel : Nat) (st : FFState) (x y : Int)
    (rest : List (Int × Int)) (hstk : st.stack = (x, y) :: rest) :
    ffLoop w h regionId (fuel + 1) st =
      if x < 0 ∨ (w : Int) ≤ x ∨ y < 0 ∨ (h : Int) ≤ y then
        ffLoop w h regionId fuel { st with stack := rest }
      else if (x, y) ∈ st.visited then
        ffLoop w h regionId fuel { st with stack := rest }
      else
        let s1 : FFState := { st with stack := rest, visited := insert (x, y) st.visited }
        if s1.grid y.toNat x.toNat ≠ 0 then
          ffLoop w h regionId fuel s1
        else
          ffLoop w h regionId fuel
            { stack := (x, y - 1) :: (x, y + 1) :: (x - 1, y) :: (x + 1, y) :: rest,
              visited := s1.visited,
              grid := setGrid s1.grid x.toNat y.toNat regionId,
              pixels := s1.pixels ++ [(x.toNat, y.toNat)] } := by
  conv_lhs => rw [ffLoop]
  rw [hstk]

/-- `ffLoop` on an empty stack is the identity. -/
theorem ffLoop_nil (w h : Nat) (regionId : Int) (fuel : Nat) (st : FFState)
    (hstk : st.stack = []) : ffLoop w h regionId fuel st = st := by
  cases fuel with
  | zero => rfl
  | succ fuel =>
      conv_lhs => rw [ffLoop]
      rw [hstk]

/-- Dropping the stack top preserves the invariant when the popped
coordinate is already visited or out of bounds. -/
theorem FFInv_drop {w h : Nat} {g0 : Nat → Nat → Int} {s : Nat × Nat} {regionId : Int}
    {st : FFState} {c : Int × Int} {rest : List (Int × Int)}
    (hs : validPos w h s) (hinv : FFInv w h g0 s regionId st) (hstk : st.stack = c :: rest)
    (hkeep : c ∈ st.visited ∨ ¬ inBoundsI w h c) :
    FFInv w h g0 s regionId { st with stack := rest } := by
  refine ⟨hinv.nodup, hinv.pixVis, hinv.visValid, hinv.visPix, hinv.gridChar,
    hinv.pixReach, ?_, ?_, ?_⟩
  · intro c' hc'
    exact hinv.stackSrc c' (by rw [hstk]; exact List.mem_cons_of_mem _ hc')
  · intro p hp c' ha hb
    rcases hinv.closure p hp c' ha hb with hvis | hstack
    · exact Or.inl hvis
    · rw [hstk] at hstack
      rcases List.mem_cons.mp hstack with rfl | hrest
      · rcases hkeep with hv | hnb
        · exact Or.inl hv
        · exact absurd hb hnb
      · exact Or.inr hrest
  · have hsb : inBoundsI w h ((s.1 : Int), (s.2 : Int)) := by
      unfold validPos at hs
      unfold inBoundsI
      simp only
      omega
    rcases hinv.start with hvis | hstack
    · exact Or.inl hvis
    · rw [hstk] at hstack
      rcases List.mem_cons.mp hstack with heq | hrest
      · rcases hkeep with hv | hnb
        · rw [heq]; exact Or.inl hv
        · rw [heq] at hsb; exact absurd hsb hnb
      · exact Or.inr hrest

/-- Marking a fresh coordinate visited and skipping it (its grid cell is
no longer `0`) preserves the invariant. -/
theorem FFInv_visit_skip {w h : Nat} {g0 : Nat → Nat → Int} {s : Nat × Nat} {regionId : Int}
    {st : FFState} {c : Int × Int} {rest : List (Int × Int)}
    (hinv : FFInv w h g0 s regionId st) (hstk : st.stack = c :: rest)
    (hbin : inBoundsI w h c) (hnv : c ∉ st.visited)
    (hg : st.grid c.2.toNat c.1.toNat ≠ 0) :
    FFInv w h g0 s regionId { st with stack := rest, visited := insert c st.visited } := by
  have hfresh : (c.1.toNat, c.2.toNat) ∉ st.pixels := by
    intro hmem
    have := hinv.pixVis _ hmem
    rw [Int.toNat_of_nonneg hbin.1, Int.toNat_of_nonneg hbin.2.2.1] at this
    exact hnv this
  have hg0 : g0 c.2.toNat c.1.toNat ≠ 0 := by
    have := hinv.gridChar c.2.toNat c.1.toNat
    rw [if_neg hfresh] at this
    rw [← this]
    exact hg
  refine ⟨hinv.nodup, ?_, ?_, ?_, hinv.gridChar, hinv.pixReach, ?_, ?_, ?_⟩
  · intro p hp
    exact Finset.mem_insert_of_mem (hinv.pixVis p hp)
  · intro c' hc'
    rcases Finset.mem_insert.mp hc' with rfl | hold
    · exact hbin
    · exact hinv.visValid c' hold
  · intro c' hc' hzero
    rcases Finset.mem_insert.mp hc' with rfl | hold
    · exact absurd hzero hg0
    · exact hinv.visPix c' hold hzero
  · intro c' hc'
    exact hinv.stackSrc c' (by rw [hstk]; exact List.mem_cons_of_mem _ hc')
  · intro p hp c' ha hb
    rcases hinv.closure p hp c' ha hb with hvis | hstack
    · exact Or.inl (Finset.mem_insert_of_mem hvis)
    · rw [hstk] at hstack
      rcases List.mem_cons.mp hstack with rfl | hrest
      · exact Or.inl (Finset.mem_insert_self _ _)
      · exact Or.inr hrest
  · rcases hinv.start with hvis | hstack
    · exact Or.inl (Finset.mem_insert_of_mem hvis)
    · rw [hstk] at hstack
      rcases List.mem_cons.mp hstack with heq | hrest
      · rw [heq]; exact Or.inl (Finset.mem_insert_self _ _)
      · exact Or.inr hrest

/-- Visiting a fresh `0`-cell — appending it to the run, painting it
with the region id, and pushing its four neighbors — preserves the
invariant. -/
theorem FFInv_visit_push {w h : Nat} {g0 : Nat → Nat → Int} {s : Nat × Nat} {regionId : Int}
    {st : FFState} {c : Int × Int} {rest : List (Int × Int)}
    (hinv : FFInv w h g0 s regionId st) (hstk : st.stack = c :: rest)
    (hbin : inBoundsI w h c) (hnv : c ∉ st.visited)
    (hg : st.grid c.2.toNat c.1.toNat = 0) :
    FFInv w h g0 s regionId
      { stack := (c.1, c.2 - 1) :: (c.1, c.2 + 1) :: (c.1 - 1, c.2) :: (c.1 + 1, c.2) :: rest,
        visited := insert c st.visited,
        grid := setGrid st.grid c.1.toNat c.2.toNat regionId,
        pixels := st.pixels ++ [(c.1.toNat, c.2.toNat)] } := by
  have hcast : ((c.1.toNat : Int), (c.2.toNat : Int)) = c := by
    rcases c with ⟨cx, cy⟩
    simp only [Prod.mk.injEq]
    unfold inBoundsI at hbin
    simp only at hbin
    omega
  have hfresh : (c.1.toNat, c.2.toNat) ∉ st.pixels := by
    intro hmem
    have := hinv.pixVis _ hmem
    rw [hcast] at this
    exact hnv this
  have hg0 : g0 c.2.toNat c.1.toNat = 0 := by
    have := hinv.gridChar c.2.toNat c.1.toNat
    rw [if_neg hfresh] at this
    rw [← this]
    exact hg
  have hvalidc : validPos w h (c.1.toNat, c.2.toNat) := by
    unfold validPos
    unfold inBoundsI at hbin
    simp only
    omega
  have hreachc : zreach w h g0 s (c.1.toNat, c.2.toNat) := by
    rcases hinv.stackSrc c (by rw [hstk]; exact List.mem_cons_self _ _) with heq | ⟨p, hp, ha⟩
    · have : (c.1.toNat, c.2.toNat) = s := by
        rw [heq]
        simp [Int.toNat_natCast]
      rw [this]
      exact zreach_refl w h g0 s
    · have hadj := adjPix_of_adjI ha hbin
      exact Relation.ReflTransGen.tail (hinv.pixReach p hp) ⟨hadj.1, hadj.2, hg0⟩
  refine ⟨?_, ?_, ?_, ?_, ?_, ?_, ?_, ?_, ?_⟩
  · -- nodup
    simp only [List.nodup_append, List.nodup_singleton, List.disjoint_singleton]
    exact ⟨hinv.nodup, by trivial, hfresh⟩
  · -- pixVis
    intro p hp
    rcases List.mem_append.mp hp with hold | hnew
    · exact Finset.mem_insert_of_mem (hinv.pixVis p hold)
    · rw [List.mem_singleton] at hnew
      subst hnew
      rw [hcast]
      exact Finset.mem_insert_self _ _
  · -- visValid
    intro c' hc'
    rcases Finset.mem_insert.mp hc' with rfl | hold
    · exact hbin
    · exact hinv.visValid c' hold
  · -- visPix
    intro c' hc' hzero
    rcases Finset.mem_insert.mp hc' with rfl | hold
    · exact List.mem_append_right _ (List.mem_singleton.mpr rfl)
    · exact List.mem_append_left _ (hinv.visPix c' hold hzero)
  · -- gridChar
    intro y' x'
    show (if y' = c.2.toNat ∧ x' = c.1.toNat then regionId else st.grid y' x') =
      if (x', y') ∈ st.pixels ++ [(c.1.toNat, c.2.toNat)] then regionId else g0 y' x'
    by_cases hxy : y' = c.2.toNat ∧ x' = c.1.toNat
    · rw [if_pos hxy]
      have : (x', y') ∈ st.pixels ++ [(c.1.toNat, c.2.toNat)] := by
        apply List.mem_append_right
        rw [List.mem_singleton]
        rw [hxy.1, hxy.2]
      rw [if_pos this]
    · rw [if_neg hxy]
      have hne : (x', y') ∉ [(c.1.toNat, c.2.toNat)] := by
        rw [List.mem_singleton]
        intro hcon
        rw [Prod.mk.injEq] at hcon
        exact hxy ⟨hcon.2, hcon.1⟩
      have : ((x', y') ∈ st.pixels ++ [(c.1.toNat, c.2.toNat)]) ↔ (x', y') ∈ st.pixels := by
        rw [List.mem_append]
        constructor
        · intro hmem
          rcases hmem with hm | hm
          · exact hm
          · exact absurd hm hne
        · exact Or.inl
      rw [hinv.gridChar y' x']
      by_cases hmem : (x', y') ∈ st.pixels
      · rw [if_pos hmem, if_pos (this.mpr hmem)]
      · rw [if_neg hmem, if_neg (fun hcon => hmem (this.mp hcon))]
  · -- pixReach
    intro p hp
    rcases List.mem_append.mp hp with hold | hnew
    · exact hinv.pixReach p hold
    · rw [List.mem_singleton] at hnew
      subst hnew
      exact hreachc
  · -- stackSrc
    intro c' hc'
    simp only [List.mem_cons] at hc'
    have hcnew : (c.1.toNat, c.2.toNat) ∈ st.pixels ++ [(c.1.toNat, c.2.toNat)] :=
      List.mem_append_right _ (List.mem_singleton.mpr rfl)
    rcases hc' with rfl | rfl | rfl | rfl | hrest
    · refine Or.inr ⟨(c.1.toNat, c.2.toNat), hcnew, ?_⟩
      right; right; right
      rw [Prod.mk.injEq]
      rcases c with ⟨cx, cy⟩
      unfold inBoundsI at hbin
      simp only at hbin ⊢
      omega
    · refine Or.inr ⟨(c.1.toNat, c.2.toNat), hcnew, ?_⟩
      right; right; left
      rw [Prod.mk.injEq]
      rcases c with ⟨cx, cy⟩
      unfold inBoundsI at hbin
      simp only at hbin ⊢
      omega
    · refine Or.inr ⟨(c.1.toNat, c.2.toNat), hcnew, ?_⟩
      right; left
      rw [Prod.mk.injEq]
      rcases c with ⟨cx, cy⟩
      unfold inBoundsI at hbin
      simp only at hbin ⊢
      omega
    · refine Or.inr ⟨(c.1.toNat, c.2.toNat), hcnew, ?_⟩
      left
      rw [Prod.mk.injEq]
      rcases c with ⟨cx, cy⟩
      unfold inBoundsI at hbin
      simp only at hbin ⊢
      omega
    · rcases hinv.stackSrc c' (by rw [hstk]; exact List.mem_cons_of_mem _ hrest) with
        heq | ⟨p, hp, ha⟩
      · exact Or.inl heq
      · exact Or.inr ⟨p, List.mem_append_left _ hp, ha⟩
  · -- closure
    intro p hp c' ha hb
    rcases List.mem_append.mp hp with hold | hnew
    · rcases hinv.closure p hold c' ha hb with hvis | hstack
      · exact Or.inl (Finset.mem_insert_of_mem hvis)
      · rw [hstk] at hstack
        rcases List.mem_cons.mp hstack with rfl | hrest
        · exact Or.inl (Finset.mem_insert_self _ _)
        · exact Or.inr (by
            simp only [List.mem_cons]
            right; right; right; right
            exact hrest)
    · rw [List.mem_singleton] at hnew
      subst hnew
      right
      simp only [List.mem_cons]
      unfold adjI at ha
      rcases c with ⟨cx, cy⟩
      unfold inBoundsI at hbin
      simp only at hbin ha
      rcases ha with rfl | rfl | rfl | rfl
      · right; right; right; left
        rw [Prod.mk.injEq]
        omega
      · right; right; left
        rw [Prod.mk.injEq]
        omega
      · right; left
        rw [Prod.mk.injEq]
        omega
      · left
        rw [Prod.mk.injEq]
        omega
  · -- start
    rcases hinv.start with hvis | hstack
    · exact Or.inl (Finset.mem_insert_of_mem hvis)
    · rw [hstk] at hstack
      rcases List.mem_cons.mp hstack with heq | hrest
      · rw [heq]; exact Or.inl (Finset.mem_insert_self _ _)
      · refine Or.inr ?_
        simp only [List.mem_cons]
        right; right; right; right
        exact hrest

/-- Visiting a fresh canvas coordinate shrinks the unvisited set. -/
theorem sdiff_insert_card {w h : Nat} {vis : Finset (Int × Int)} {c : Int × Int}
    (hb : c ∈ boxI w h) (hnv : c ∉ vis) :
    ((boxI w h) \ insert c vis).card + 1 = ((boxI w h) \ vis).card := by
  rw [Finset.sdiff_insert]
  rw [Finset.card_erase_of_mem (Finset.mem_sdiff.mpr ⟨hb, hnv⟩)]
  have hpos : 0 < ((boxI w h) \ vis).card :=
    Finset.card_pos.mpr ⟨c, Finset.mem_sdiff.mpr ⟨hb, hnv⟩⟩
  omega

/-- The flood-fill loop, run with fuel at least its measure, preserves
the invariant and drains its stack. -/
theorem ffLoop_inv {w h : Nat} {g0 : Nat → Nat → Int} {s : Nat × Nat} {regionId : Int}
    (hs : validPos w h s) :
    ∀ (fuel : Nat) (st : FFState), FFInv w h g0 s regionId st →
      ffMeasure w h st ≤ fuel →
      FFInv w h g0 s regionId (ffLoop w h regionId fuel st) ∧
      (ffLoop w h regionId fuel st).stack = [] := by
  intro fuel
  induction fuel with
  | zero =>
      intro st hinv hm
      have hstk : st.stack = [] := by
        unfold ffMeasure at hm
        cases hstk' : st.stack with
        | nil => rfl
        | cons a rest =>
            rw [hstk'] at hm
            simp only [List.length_cons] at hm
            omega
      exact ⟨hinv, hstk⟩
  | succ fuel ih =>
      intro st hinv hm
      cases hstk : st.stack with
      | nil =>
          rw [ffLoop_nil _ _ _ _ _ hstk]
          exact ⟨hinv, hstk⟩
      | cons c rest =>
          obtain ⟨x, y⟩ := c
          rw [ffLoop_cons w h regionId fuel st x y rest hstk]
          have hmstack : ffMeasure w h st =
              5 * ((boxI w h) \ st.visited).card + (rest.length + 1) := by
            unfold ffMeasure
            rw [hstk]
            rfl
          by_cases hb : x < 0 ∨ (w : Int) ≤ x ∨ y < 0 ∨ (h : Int) ≤ y
          · rw [if_pos hb]
            apply ih
            · apply FFInv_drop hs hinv hstk
              right
              unfold inBoundsI
              simp only
              omega
            · unfold ffMeasure at hm ⊢
              simp only [List.length_cons] at hm ⊢
              rw [hstk] at hm
              simp only [List.length_cons] at hm
              omega
          · rw [if_neg hb]
            have hbin : inBoundsI w h (x, y) := by
              unfold inBoundsI
              simp only
              omega
            by_cases hv : (x, y) ∈ st.visited
            · rw [if_pos hv]
              apply ih
              · exact FFInv_drop hs hinv hstk (Or.inl hv)
              · unfold ffMeasure at hm ⊢
                rw [hstk] at hm
                simp only [List.length_cons] at hm ⊢
                omega
            · rw [if_neg hv]
              have hcard := sdiff_insert_card (mem_boxI.mpr hbin) hv
              by_cases hg : st.grid y.toNat x.toNat = 0
              · rw [if_neg (by
                  show ¬ st.grid y.toNat x.toNat ≠ 0
                  rw [Ne, not_not]
                  exact hg)]
                apply ih
                · exact FFInv_visit_push hinv hstk hbin hv hg
                · unfold ffMeasure at hm ⊢
                  rw [hstk] at hm
                  simp only [List.length_cons] at hm ⊢
                  omega
              · rw [if_pos (by
                  show st.grid y.toNat x.toNat ≠ 0
                  exact hg)]
                apply ih
                · exact FFInv_visit_skip hinv hstk hbin hv hg
                · unfold ffMeasure at hm ⊢
                  rw [hstk] at hm
                  simp only [List.length_cons] at hm ⊢
                  omega

theorem boxI_card (w h : Nat) : (boxI w h).card = w * h := by
  unfold boxI
  rw [Finset.card_image_of_injective _ (fun a b hab => by
    rw [Prod.mk.injEq] at hab
    exact Prod.ext (Int.natCast_inj.mp hab.1) (Int.natCast_inj.mp hab.2))]
  rw [Finset.card_product, Finset.card_range, Finset.card_range]

/-- Full specification of `floodFillRegion` on a valid `0`-cell start:
the collected pixel list has no duplicates, contains exactly the
pixels 4-connected to the start through `0`-cells, and the grid is the
input grid with precisely those pixels painted with the region id. -/
theorem floodFillRegion_spec (w h : Nat) (g0 : Nat → Nat → Int) (s : Nat × Nat)
    (regionId : Int) (hs : validPos w h s) (hs0 : g0 s.2 s.1 = 0) :
    (floodFillRegion w h g0 s.1 s.2 regionId).pixels.Nodup ∧
    (∀ q : Nat × Nat,
      q ∈ (floodFillRegion w h g0 s.1 s.2 regionId).pixels ↔ zreach w h g0 s q) ∧
    (∀ y x, (floodFillRegion w h g0 s.1 s.2 regionId).grid y x =
      if (x, y) ∈ (floodFillRegion w h g0 s.1 s.2 regionId).pixels then regionId
      else g0 y x) := by
  have hinit : FFInv w h g0 s regionId
      { stack := [((s.1 : Int), (s.2 : Int))], visited := ∅, grid := g0, pixels := [] } := by
    refine ⟨List.nodup_nil, ?_, ?_, ?_, ?_, ?_, ?_, ?_, ?_⟩
    · intro p hp; exact absurd hp (List.not_mem_nil p)
    · intro c hc; exact absurd hc (Finset.not_mem_empty c)
    · intro c hc; exact absurd hc (Finset.not_mem_empty c)
    · intro y x
      rw [if_neg (List.not_mem_nil (x, y))]
    · intro p hp; exact absurd hp (List.not_mem_nil p)
    · intro c hc
      rw [List.mem_singleton] at hc
      exact Or.inl hc
    · intro p hp; exact absurd hp (List.not_mem_nil p)
    · exact Or.inr (List.mem_singleton.mpr rfl)
  have hmeas : ffMeasure w h
      { stack := [((s.1 : Int), (s.2 : Int))], visited := ∅, grid := g0, pixels := [] } ≤
        5 * (w * h) + 1 := by
    unfold ffMeasure
    simp only [Finset.sdiff_empty, List.length_singleton]
    rw [boxI_card]
  obtain ⟨hinv, hstk⟩ := ffLoop_inv hs (5 * (w * h) + 1)
    { stack := [((s.1 : Int), (s.2 : Int))], visited := ∅, grid := g0, pixels := [] }
    hinit hmeas
  refine ⟨hinv.nodup, ?_, hinv.gridChar⟩
  intro q
  constructor
  · exact hinv.pixReach q
  · intro hr
    induction hr with
    | refl =>
        have hsvis : ((s.1 : Int), (s.2 : Int)) ∈
            (ffLoop w h regionId (5 * (w * h) + 1)
              { stack := [((s.1 : Int), (s.2 : Int))], visited := ∅, grid := g0,
                pixels := [] }).visited := by
          rcases hinv.start with hvis | hstack
          · exact hvis
          · rw [hstk] at hstack
            exact absurd hstack (List.not_mem_nil _)
        have := hinv.visPix _ hsvis (by
          simp only [Int.toNat_natCast]
          exact hs0)
        simpa only [Int.toNat_natCast] using this
    | tail hchain hstep ihq =>
        rename_i b q'
        have hb : b ∈ (ffLoop w h regionId (5 * (w * h) + 1)
            { stack := [((s.1 : Int), (s.2 : Int))], visited := ∅, grid := g0,
              pixels := [] }).pixels := ihq
        obtain ⟨hadj, hvq, h0q⟩ := hstep
        have hbq : inBoundsI w h ((q'.1 : Int), (q'.2 : Int)) := by
          unfold validPos at hvq
          unfold inBoundsI
          simp only
          omega
        have hclos := hinv.closure b hb ((q'.1 : Int), (q'.2 : Int))
          (adjI_of_adjPix hadj) hbq
        rcases hclos with hvis | hstack
        · have := hinv.visPix _ hvis (by
            simp only [Int.toNat_natCast]
            exact h0q)
          simpa only [Int.toNat_natCast] using this
        · rw [hstk] at hstack
          exact absurd hstack (List.not_mem_nil _)

/-- `C` enumerates the 4-connected `0`-area of `p` in grid `g`. -/
def enumeratesComponent (w h : Nat) (g : Nat → Nat → Int) (p : Nat × Nat)
    (C : Finset (Nat × Nat)) : Prop :=
  ∀ q, q ∈ C ↔ zreach w h g p q

/-- The 4-connected `0`-area of `p` has fewer than `minSize` pixels
(every finite enumeration of it is smaller than `minSize`). -/
def smallComponent (w h : Nat) (g : Nat → Nat → Int) (minSize : Nat) (p : Nat × Nat) :
    Prop :=
  ∀ C, enumeratesComponent w h g p C → C.card < minSize

/-- Any two enumerations of the same area coincide. -/
theorem enumeratesComponent_unique {w h : Nat} {g : Nat → Nat → Int} {p : Nat × Nat}
    {C C' : Finset (Nat × Nat)} (hC : enumeratesComponent w h g p C)
    (hC' : enumeratesComponent w h g p C') : C = C' := by
  apply Finset.ext
  intro q
  rw [hC q, hC' q]

/-- The flood fill run on the pristine grid enumerates the area. -/
theorem floodFill_enumerates (w h : Nat) (g : Nat → Nat → Int) (p : Nat × Nat)
    (hp : validPos w h p) (hp0 : g p.2 p.1 = 0) :
    enumeratesComponent w h g p (floodFillRegion w h g p.1 p.2 1).pixels.toFinset := by
  intro q
  rw [List.mem_toFinset]
  exact (floodFillRegion_spec w h g p 1 hp hp0).2.1 q

/-- Smallness is equivalent to the flood-fill pixel count being below
the threshold. -/
theorem smallComponent_iff_floodFill (w h : Nat) (g : Nat → Nat → Int) (minSize : Nat)
    (p : Nat × Nat) (hp : validPos w h p) (hp0 : g p.2 p.1 = 0) :
    smallComponent w h g minSize p ↔
      (floodFillRegion w h g p.1 p.2 1).pixels.length < minSize := by
  have henum := floodFill_enumerates w h g p hp hp0
  have hcard : (floodFillRegion w h g p.1 p.2 1).pixels.toFinset.card =
      (floodFillRegion w h g p.1 p.2 1).pixels.length :=
    List.toFinset_card_of_nodup (floodFillRegion_spec w h g p 1 hp hp0).1
  constructor
  · intro hsmall
    rw [← hcard]
    exact hsmall _ henum
  · intro hlen C hC
    rw [enumeratesComponent_unique hC henum, hcard]
    exact hlen

/-- Membership in the same area transfers the reachability relation. -/
theorem zreach_congr {w h : Nat} {g : Nat → Nat → Int} {p q : Nat × Nat}
    (hp : validPos w h p) (hp0 : g p.2 p.1 = 0) (hpq : zreach w h g p q) :
    ∀ r, zreach w h g q r ↔ zreach w h g p r := by
  intro r
  constructor
  · exact fun hqr => zreach_trans hpq hqr
  · exact fun hpr => zreach_trans (zreach_symm hp hp0 hpq) hpr

/-- Smallness is a property of the area, shared by all its members. -/
theorem smallComponent_congr {w h : Nat} {g : Nat → Nat → Int} {minSize : Nat}
    {p q : Nat × Nat} (hp : validPos w h p) (hp0 : g p.2 p.1 = 0)
    (hpq : zreach w h g p q) :
    smallComponent w h g minSize q ↔ smallComponent w h g minSize p := by
  have hiff := zreach_congr hp hp0 hpq
  constructor
  · intro hs C hC
    apply hs C
    intro r
    rw [hC r, hiff r]
  · intro hs C hC
    apply hs C
    intro r
    rw [hC r, hiff r]

/-- Row-major linear index of a pixel. -/
def rmIndex (w : Nat) (q : Nat × Nat) : Nat := q.2 * w + q.1

/-- The pixel visited at step `k` of the raster scan. -/
def posOf (w : Nat) (k : Nat) : Nat × Nat := (k % w, k / w)

theorem rmIndex_posOf (w k : Nat) : rmIndex w (posOf w k) = k := by
  unfold rmIndex posOf
  simp only
  rw [Nat.mul_comm]
  exact Nat.div_add_mod k w

theorem posOf_valid (w h : Nat) (k : Nat) (hk : k < h * w) : validPos w h (posOf w k) := by
  have hw : 0 < w := by
    rcases Nat.eq_zero_or_pos w with h0 | h0
    · rw [h0] at hk; simp at hk
    · exact h0
  unfold validPos posOf
  simp only
  exact ⟨Nat.mod_lt k hw, Nat.div_lt_of_lt_mul (by rw [Nat.mul_comm] at hk; exact hk)⟩

theorem rmIndex_lt_of_valid {w h : Nat} {q : Nat × Nat} (hq : validPos w h q) :
    rmIndex w q < h * w := by
  obtain ⟨h1, h2⟩ := hq
  unfold rmIndex
  calc q.2 * w + q.1 < q.2 * w + w := by omega
    _ = (q.2 + 1) * w := by ring
    _ ≤ h * w := Nat.mul_le_mul_right w h2

theorem rmIndex_inj {w h : Nat} {q q' : Nat × Nat} (hq : validPos w h q)
    (hq' : validPos w h q') (heq : rmIndex w q = rmIndex w q') : q = q' := by
  obtain ⟨h1, h2⟩ := hq
  obtain ⟨h1', h2'⟩ := hq'
  unfold rmIndex at heq
  have hx : q.1 = q'.1 := by
    have e1 : (q.2 * w + q.1) % w = q.1 := by
      rw [Nat.add_comm, Nat.add_mul_mod_self_right, Nat.mod_eq_of_lt h1]
    have e2 : (q'.2 * w + q'.1) % w = q'.1 := by
      rw [Nat.add_comm, Nat.add_mul_mod_self_right, Nat.mod_eq_of_lt h1']
    rw [← e1, ← e2, heq]
  have hy : q.2 = q'.2 := by
    have hw : 0 < w := by omega
    have e1 : (q.2 * w + q.1) / w = q.2 := by
      rw [Nat.add_comm, Nat.add_mul_div_right _ _ hw, Nat.div_eq_of_lt h1, Nat.zero_add]
    have e2 : (q'.2 * w + q'.1) / w = q'.2 := by
      rw [Nat.add_comm, Nat.add_mul_div_right _ _ hw, Nat.div_eq_of_lt h1', Nat.zero_add]
    rw [← e1, ← e2, heq]
  exact Prod.ext hx hy

/-- The area of `p` has already been entered by the scan prefix of
length `k` (some member has row-major index below `k`). -/
def touched (w h : Nat) (g0 : Nat → Nat → Int) (k : Nat) (p : Nat × Nat) : Prop :=
  ∃ q, zreach w h g0 p q ∧ rmIndex w q < k

/-- `p` is the row-major-first pixel of its (non-boundary) area. -/
def componentRep (w h : Nat) (g0 : Nat → Nat → Int) (p : Nat × Nat) : Prop :=
  validPos w h p ∧ g0 p.2 p.1 = 0 ∧
    ∀ q, zreach w h g0 p q → rmIndex w p ≤ rmIndex w q

/-- Values of the boundary-marked grid are `0` or `-1`. -/
theorem initialGrid_cases (img : ImageDataM) (t : ℚ) (y x : Nat) :
    initialGrid img t y x = 0 ∨ initialGrid img t y x = -1 := by
  unfold initialGrid
  by_cases hc : y < img.height ∧ x < img.width ∧
      isBoundaryPixel (getPixelColor img x y) t = true
  · rw [if_pos hc]; exact Or.inr rfl
  · rw [if_neg hc]; exact Or.inl rfl

/-- For an on-canvas pixel, a `0` cell of the boundary-marked grid is
exactly a non-boundary pixel. -/
theorem initialGrid_zero_iff (img : ImageDataM) (t : ℚ) (p : Nat × Nat)
    (hp : validPos img.width img.height p) :
    initialGrid img t p.2 p.1 = 0 ↔
      isBoundaryPixel (getPixelColor img p.1 p.2) t = false := by
  obtain ⟨h1, h2⟩ := hp
  unfold initialGrid
  by_cases hb : isBoundaryPixel (getPixelColor img p.1 p.2) t = true
  · rw [if_pos ⟨h2, h1, hb⟩]
    constructor
    · intro hcon; exact absurd hcon (by norm_num)
    · intro hcon; rw [hb] at hcon; exact absurd hcon (by simp)
  · rw [if_neg (by
      intro hcon
      exact hb hcon.2.2)]
    rw [Bool.not_eq_true] at hb
    exact ⟨fun _ => hb, fun _ => rfl⟩

/-- If a member of `p`'s area is touched, `p` is touched. -/
theorem touched_of_reach {w h : Nat} {g0 : Nat → Nat → Int} {k : Nat} {p q : Nat × Nat}
    (hpq : zreach w h g0 p q) (hq : touched w h g0 k q) : touched w h g0 k p := by
  obtain ⟨r, hqr, hrk⟩ := hq
  exact ⟨r, zreach_trans hpq hqr, hrk⟩

/-- Scanning one more pixel `posOf w k` touches exactly the areas that
contain it (for pixels of `0`-areas). -/
theorem touched_succ_iff {w h : Nat} {g0 : Nat → Nat → Int} {k : Nat} {p : Nat × Nat}
    (hk : k < h * w) (hp : validPos w h p) (hp0 : g0 p.2 p.1 = 0) :
    touched w h g0 (k + 1) p ↔
      touched w h g0 k p ∨ zreach w h g0 p (posOf w k) := by
  constructor
  · rintro ⟨q, hq, hqk⟩
    rcases Nat.lt_succ_iff_lt_or_eq.mp hqk with hlt | heq
    · exact Or.inl ⟨q, hq, hlt⟩
    · right
      have hqvalid : validPos w h q := by
        rcases zreach_target hq with rfl | ⟨hv, _⟩
        · exact hp
        · exact hv
      have : q = posOf w k := by
        apply rmIndex_inj hqvalid (posOf_valid w h k hk)
        rw [heq, rmIndex_posOf]
      rw [← this]
      exact hq
  · rintro (⟨q, hq, hqk⟩ | hreach)
    · exact ⟨q, hq, by omega⟩
    · exact ⟨posOf w k, hreach, by rw [rmIndex_posOf]; omega⟩

/-- Reachability through the scan grid agrees with reachability through
the boundary-marked grid, on an untouched area. -/
theorem zreach_scan_grid {w h : Nat} {g g0 : Nat → Nat → Int} {k : Nat} {p : Nat × Nat}
    (hzero : ∀ q, validPos w h q →
      (g q.2 q.1 = 0 ↔ g0 q.2 q.1 = 0 ∧ ¬ touched w h g0 k q))
    (hpt : ¬ touched w h g0 k p) :
    ∀ r, zreach w h g p r ↔ zreach w h g0 p r := by
  intro r
  constructor
  · intro hr
    induction hr with
    | refl => exact zreach_refl w h g0 p
    | tail hchain hstep ihr =>
        rename_i b q'
        obtain ⟨hadj, hv, h0⟩ := hstep
        have h0' := ((hzero q' hv).mp h0).1
        exact Relation.ReflTransGen.tail ihr ⟨hadj, hv, h0'⟩
  · intro hr
    induction hr with
    | refl => exact zreach_refl w h g p
    | tail hchain hstep ihr =>
        rename_i b q'
        obtain ⟨hadj, hv, h0⟩ := hstep
        have hq'g0 : zreach w h g0 p q' := Relation.ReflTransGen.tail hchain ⟨hadj, hv, h0⟩
        have huntouched : ¬ touched w h g0 k q' := by
          intro ht
          exact hpt (touched_of_reach hq'g0 ht)
        exact Relation.ReflTransGen.tail ihr ⟨hadj, hv, (hzero q' hv).mpr ⟨h0, huntouched⟩⟩

/-- Pointwise description of `relabelAll`. -/
theorem relabelAll_char (pixels : List (Nat × Nat)) (g : Nat → Nat → Int) (y x : Nat) :
    relabelAll g pixels y x = if (x, y) ∈ pixels then -1 else g y x := by
  induction pixels generalizing g with
  | nil =>
      rw [if_neg (List.not_mem_nil (x, y))]
      rfl
  | cons p rest ih =>
      show relabelAll (setGrid g p.1 p.2 (-1)) rest y x = _
      rw [ih]
      by_cases hrest : (x, y) ∈ rest
      · rw [if_pos hrest, if_pos (List.mem_cons_of_mem p hrest)]
      · rw [if_neg hrest]
        unfold setGrid
        by_cases hp : y = p.2 ∧ x = p.1
        · rw [if_pos hp, if_pos (by
            rw [List.mem_cons]
            left
            rw [Prod.mk.injEq]
            exact ⟨hp.2, hp.1⟩)]
        · rw [if_neg hp, if_neg (by
            rw [List.mem_cons]
            rintro (hc | hc)
            · rw [Prod.mk.injEq] at hc
              exact hp ⟨hc.2, hc.1⟩
            · exact hrest hc)]

/-- Invariant of the raster scan of `detectRegions` after the first `k`
pixels (in row-major order) have been processed. -/
structure ScanInv (w h : Nat) (g0 : Nat → Nat → Int) (minSize : Nat) (k : Nat)
    (st : ScanState) : Prop where
  gridZero : ∀ p, validPos w h p →
    (st.grid p.2 p.1 = 0 ↔ g0 p.2 p.1 = 0 ∧ ¬ touched w h g0 k p)
  gridNeg : ∀ p, validPos w h p →
    (st.grid p.2 p.1 = -1 ↔ (g0 p.2 p.1 = -1 ∨
      (g0 p.2 p.1 = 0 ∧ touched w h g0 k p ∧ smallComponent w h g0 minSize p)))
  gridPos : ∀ p, validPos w h p →
    (0 < st.grid p.2 p.1 ↔ (g0 p.2 p.1 = 0 ∧ touched w h g0 k p ∧
      ¬ smallComponent w h g0 minSize p))
  gridOut : ∀ p : Nat × Nat, ¬ validPos w h p → st.grid p.2 p.1 = g0 p.2 p.1
  countv : ∀ R : Finset (Nat × Nat),
    (∀ q, q ∈ R ↔ (componentRep w h g0 q ∧ ¬ smallComponent w h g0 minSize q ∧
      rmIndex w q < k)) → st.regionCount = R.card
  curId : st.currentRegionId = (st.regionCount : Int) + 1

/-- The scan state after processing the first `k` pixels. -/
def scanFold (img : ImageDataM) (t : ℚ) (minSize : Nat) (k : Nat) : ScanState :=
  ((List.range k).map (posOf img.width)).foldl (scanStep minSize img.width img.height)
    { grid := initialGrid img t, regionCount := 0, currentRegionId := 1 }

theorem scanFold_succ (img : ImageDataM) (t : ℚ) (minSize : Nat) (k : Nat) :
    scanFold img t minSize (k + 1) =
      scanStep minSize img.width img.height (scanFold img t minSize k)
        (posOf img.width k) := by
  unfold scanFold
  rw [List.range_succ, List.map_append, List.foldl_append]
  rfl

/-- `detectRegions` is the scan state after the full raster pass. -/
theorem detectRegions_eq_scanFold (img : ImageDataM) (t : ℚ) (minSize : Nat) :
    detectRegions img t minSize =
      { width := img.width, height := img.height,
        regionCount := (scanFold img t minSize (img.height * img.width)).regionCount,
        pixelToRegion := (scanFold img t minSize (img.height * img.width)).grid } := rfl

theorem scanStep_skip {minSize w h : Nat} {st : ScanState} {p : Nat × Nat}
    (hA : st.grid p.2 p.1 ≠ 0) : scanStep minSize w h st p = st := by
  unfold scanStep
  rw [if_pos hA]

theorem scanStep_large {minSize w h : Nat} {st : ScanState} {p : Nat × Nat}
    (h0 : st.grid p.2 p.1 = 0)
    (hlen : minSize ≤ (floodFillRegion w h st.grid p.1 p.2 st.currentRegionId).pixels.length) :
    scanStep minSize w h st p =
      { grid := (floodFillRegion w h st.grid p.1 p.2 st.currentRegionId).grid,
        regionCount := st.regionCount + 1,
        currentRegionId := st.currentRegionId + 1 } := by
  unfold scanStep
  rw [if_neg (by rw [Ne, not_not]; exact h0)]
  show (if minSize ≤ (floodFillRegion w h st.grid p.1 p.2 st.currentRegionId).pixels.length
    then _ else _) = _
  rw [if_pos hlen]

theorem scanStep_small {minSize w h : Nat} {st : ScanState} {p : Nat × Nat}
    (h0 : st.grid p.2 p.1 = 0)
    (hlen : ¬ minSize ≤
      (floodFillRegion w h st.grid p.1 p.2 st.currentRegionId).pixels.length) :
    scanStep minSize w h st p =
      { grid := relabelAll (floodFillRegion w h st.grid p.1 p.2 st.currentRegionId).grid
          (floodFillRegion w h st.grid p.1 p.2 st.currentRegionId).pixels,
        regionCount := st.regionCount,
        currentRegionId := st.currentRegionId } := by
  unfold scanStep
  rw [if_neg (by rw [Ne, not_not]; exact h0)]
  show (if minSize ≤ (floodFillRegion w h st.grid p.1 p.2 st.currentRegionId).pixels.length
    then _ else _) = _
  rw [if_neg hlen]

/-- Growing the scan prefix preserves touchedness. -/
theorem touched_mono {w h : Nat} {g0 : Nat → Nat → Int} {k : Nat} {p : Nat × Nat}
    (ht : touched w h g0 k p) : touched w h g0 (k + 1) p := by
  obtain ⟨q, hq, hk⟩ := ht
  exact ⟨q, hq, by omega⟩

/-- The scan invariant holds initially. -/
theorem scanInv_zero (img : ImageDataM) (t : ℚ) (minSize : Nat) :
    ScanInv img.width img.height (initialGrid img t) minSize 0
      (scanFold img t minSize 0) := by
  have hnt : ∀ p : Nat × Nat, ¬ touched img.width img.height (initialGrid img t) 0 p := by
    rintro p ⟨q, _, hq⟩
    omega
  refine ⟨?_, ?_, ?_, ?_, ?_, ?_⟩
  · intro p _
    exact ⟨fun h0 => ⟨h0, hnt p⟩, fun hc => hc.1⟩
  · intro p _
    constructor
    · exact Or.inl
    · rintro (hneg | ⟨_, ht, _⟩)
      · exact hneg
      · exact absurd ht (hnt p)
  · intro p _
    constructor
    · intro hpos
      have hpos' : (0 : Int) < initialGrid img t p.2 p.1 := hpos
      rcases initialGrid_cases img t p.2 p.1 with h0 | h1
      · rw [h0] at hpos'
        exact absurd hpos' (by norm_num)
      · rw [h1] at hpos'
        exact absurd hpos' (by norm_num)
    · rintro ⟨_, ht, _⟩
      exact absurd ht (hnt p)
  · intro p _
    rfl
  · intro R hR
    have hempty : R = ∅ := by
      apply Finset.eq_empty_of_forall_not_mem
      intro q hq
      have := ((hR q).mp hq).2.2
      omega
    rw [hempty]
    rfl
  · rfl

/-- The scan invariant is preserved by one raster-scan step. -/
theorem scanInv_step (img : ImageDataM) (t : ℚ) (minSize : Nat) (k : Nat)
    (hk : k < img.height * img.width)
    (hinv : ScanInv img.width img.height (initialGrid img t) minSize k
      (scanFold img t minSize k)) :
    ScanInv img.width img.height (initialGrid img t) minSize (k + 1)
      (scanFold img t minSize (k + 1)) := by
  set w := img.width with hwdef
  set h := img.height with hhdef
  set g0 := initialGrid img t with hg0def
  set st := scanFold img t minSize k with hstdef
  rw [scanFold_succ]
  set pk := posOf w k with hpkdef
  have hpkvalid : validPos w h pk := posOf_valid w h k hk
  have hrmpk : rmIndex w pk = k := rmIndex_posOf w k
  by_cases hA : st.grid pk.2 pk.1 ≠ 0
  · rw [scanStep_skip hA]
    have hcase : g0 pk.2 pk.1 = -1 ∨ touched w h g0 k pk := by
      by_cases hg0 : g0 pk.2 pk.1 = 0
      · by_cases ht : touched w h g0 k pk
        · exact Or.inr ht
        · exact absurd ((hinv.gridZero pk hpkvalid).mpr ⟨hg0, ht⟩) hA
      · rcases initialGrid_cases img t pk.2 pk.1 with hz | hneg
        · exact absurd hz hg0
        · exact Or.inl hneg
    have hT : ∀ p : Nat × Nat, validPos w h p → g0 p.2 p.1 = 0 →
        (touched w h g0 (k + 1) p ↔ touched w h g0 k p) := by
      intro p hp hp0
      rw [touched_succ_iff hk hp hp0]
      constructor
      · rintro (ht | hz)
        · exact ht
        · rcases hcase with hneg | htpk
          · exfalso
            rcases zreach_target hz with heq | ⟨_, h0⟩
            · rw [← heq] at hp0
              rw [hp0] at hneg
              exact absurd hneg (by decide)
            · rw [h0] at hneg
              exact absurd hneg (by decide)
          · exact touched_of_reach hz htpk
      · exact Or.inl
    refine ⟨?_, ?_, ?_, hinv.gridOut, ?_, hinv.curId⟩
    · intro p hp
      rw [hinv.gridZero p hp]
      constructor
      · rintro ⟨h0, htk⟩
        exact ⟨h0, fun ht1 => htk ((hT p hp h0).mp ht1)⟩
      · rintro ⟨h0, ht1⟩
        exact ⟨h0, fun htk => ht1 (touched_mono htk)⟩
    · intro p hp
      rw [hinv.gridNeg p hp]
      constructor
      · rintro (hneg | ⟨h0, htk, hs⟩)
        · exact Or.inl hneg
        · exact Or.inr ⟨h0, touched_mono htk, hs⟩
      · rintro (hneg | ⟨h0, ht1, hs⟩)
        · exact Or.inl hneg
        · exact Or.inr ⟨h0, (hT p hp h0).mp ht1, hs⟩
    · intro p hp
      rw [hinv.gridPos p hp]
      constructor
      · rintro ⟨h0, htk, hs⟩
        exact ⟨h0, touched_mono htk, hs⟩
      · rintro ⟨h0, ht1, hs⟩
        exact ⟨h0, (hT p hp h0).mp ht1, hs⟩
    · intro R hR
      apply hinv.countv
      intro q
      rw [hR q]
      constructor
      · rintro ⟨hrep, hs, hlt⟩
        refine ⟨hrep, hs, ?_⟩
        rcases Nat.lt_succ_iff_lt_or_eq.mp hlt with hlt' | heq
        · exact hlt'
        · exfalso
          have hq_pk : q = pk := rmIndex_inj hrep.1 hpkvalid (by rw [heq, hrmpk])
          rcases hcase with hneg | htpk
          · have h00 := hrep.2.1
            rw [hq_pk] at h00
            omega
          · obtain ⟨q', hq', hq'k⟩ := htpk
            have hmin := hrep.2.2 q' (by rw [hq_pk]; exact hq')
            rw [hq_pk, hrmpk] at hmin
            omega
      · rintro ⟨hrep, hs, hlt⟩
        exact ⟨hrep, hs, by omega⟩
  · rw [Ne, not_not] at hA
    obtain ⟨hg0pk, huntouched⟩ := (hinv.gridZero pk hpkvalid).mp hA
    set ff := floodFillRegion w h st.grid pk.1 pk.2 st.currentRegionId with hffdef
    have hffspec := floodFillRegion_spec w h st.grid pk st.currentRegionId hpkvalid hA
    have hreachiff : ∀ r, zreach w h st.grid pk r ↔ zreach w h g0 pk r :=
      zreach_scan_grid hinv.gridZero huntouched
    have hmem : ∀ q, q ∈ ff.pixels ↔ zreach w h g0 pk q :=
      fun q => (hffspec.2.1 q).trans (hreachiff q)
    have hcard : ff.pixels.toFinset.card = ff.pixels.length :=
      List.toFinset_card_of_nodup hffspec.1
    have henum : enumeratesComponent w h g0 pk ff.pixels.toFinset := by
      intro q
      rw [List.mem_toFinset]
      exact hmem q
    have hsmall_iff : smallComponent w h g0 minSize pk ↔ ff.pixels.length < minSize := by
      constructor
      · intro hs
        rw [← hcard]
        exact hs _ henum
      · intro hl C hC
        rw [enumeratesComponent_unique hC henum, hcard]
        exact hl
    have hmemvalid : ∀ p : Nat × Nat, zreach w h g0 pk p →
        validPos w h p ∧ g0 p.2 p.1 = 0 := by
      intro p hin
      rcases zreach_target hin with heq | hv
      · rw [heq]
        exact ⟨hpkvalid, hg0pk⟩
      · exact hv
    have hsymm : ∀ p : Nat × Nat, zreach w h g0 pk p → zreach w h g0 p pk :=
      fun p hin => zreach_symm hpkvalid hg0pk hin
    have htouched_new : ∀ p : Nat × Nat, zreach w h g0 pk p → touched w h g0 (k + 1) p :=
      fun p hin => ⟨pk, hsymm p hin, by rw [hrmpk]; omega⟩
    have hsmall_tr : ∀ p : Nat × Nat, zreach w h g0 pk p →
        (smallComponent w h g0 minSize p ↔ smallComponent w h g0 minSize pk) :=
      fun p hin => smallComponent_congr hpkvalid hg0pk hin
    have hT' : ∀ p : Nat × Nat, ¬ zreach w h g0 pk p → validPos w h p →
        g0 p.2 p.1 = 0 → (touched w h g0 (k + 1) p ↔ touched w h g0 k p) := by
      intro p hnin hp hp0
      rw [touched_succ_iff hk hp hp0]
      constructor
      · rintro (ht | hz)
        · exact ht
        · exact absurd (zreach_symm hp hp0 hz) hnin
      · exact Or.inl
    have hrep : componentRep w h g0 pk := by
      refine ⟨hpkvalid, hg0pk, ?_⟩
      intro q hq
      rw [hrmpk]
      by_contra hcon
      push_neg at hcon
      exact huntouched ⟨q, hq, hcon⟩
    by_cases hlen : minSize ≤ ff.pixels.length
    · rw [scanStep_large hA hlen]
      have hns : ¬ smallComponent w h g0 minSize pk := by
        rw [hsmall_iff]
        omega
      have hgrid_in : ∀ p : Nat × Nat, zreach w h g0 pk p →
          ff.grid p.2 p.1 = st.currentRegionId := by
        intro p hin
        rw [hffspec.2.2 p.2 p.1, if_pos ((hmem p).mpr hin)]
      have hgrid_out : ∀ p : Nat × Nat, ¬ zreach w h g0 pk p →
          ff.grid p.2 p.1 = st.grid p.2 p.1 := by
        intro p hin
        rw [hffspec.2.2 p.2 p.1, if_neg (fun hc => hin ((hmem p).mp hc))]
      have hrid_pos : (0 : Int) < st.currentRegionId := by
        rw [hinv.curId]
        positivity
      refine ⟨?_, ?_, ?_, ?_, ?_, ?_⟩
      · intro p hp
        show ff.grid p.2 p.1 = 0 ↔ _
        by_cases hin : zreach w h g0 pk p
        · rw [hgrid_in p hin]
          constructor
          · intro h0
            exfalso
            omega
          · rintro ⟨_, ht1⟩
            exact absurd (htouched_new p hin) ht1
        · rw [hgrid_out p hin, hinv.gridZero p hp]
          constructor
          · rintro ⟨h0, htk⟩
            exact ⟨h0, fun ht1 => htk ((hT' p hin hp h0).mp ht1)⟩
          · rintro ⟨h0, ht1⟩
            exact ⟨h0, fun htk => ht1 (touched_mono htk)⟩
      · intro p hp
        show ff.grid p.2 p.1 = -1 ↔ _
        by_cases hin : zreach w h g0 pk p
        · rw [hgrid_in p hin]
          obtain ⟨hpv, hp0⟩ := hmemvalid p hin
          constructor
          · intro hcon
            exfalso
            omega
          · rintro (hneg | ⟨_, _, hs⟩)
            · exfalso
              rw [hp0] at hneg
              exact absurd hneg (by decide)
            · exact absurd ((hsmall_tr p hin).mp hs) hns
        · rw [hgrid_out p hin, hinv.gridNeg p hp]
          constructor
          · rintro (hneg | ⟨h0, htk, hs⟩)
            · exact Or.inl hneg
            · exact Or.inr ⟨h0, touched_mono htk, hs⟩
          · rintro (hneg | ⟨h0, ht1, hs⟩)
            · exact Or.inl hneg
            · exact Or.inr ⟨h0, (hT' p hin hp h0).mp ht1, hs⟩
      · intro p hp
        show 0 < ff.grid p.2 p.1 ↔ _
        by_cases hin : zreach w h g0 pk p
        · rw [hgrid_in p hin]
          obtain ⟨hpv, hp0⟩ := hmemvalid p hin
          constructor
          · intro _
            exact ⟨hp0, htouched_new p hin, fun hs => hns ((hsmall_tr p hin).mp hs)⟩
          · intro _
            exact hrid_pos
        · rw [hgrid_out p hin, hinv.gridPos p hp]
          constructor
          · rintro ⟨h0, htk, hs⟩
            exact ⟨h0, touched_mono htk, hs⟩
          · rintro ⟨h0, ht1, hs⟩
            exact ⟨h0, (hT' p hin hp h0).mp ht1, hs⟩
      · intro p hnp
        show ff.grid p.2 p.1 = g0 p.2 p.1
        rw [hgrid_out p (fun hin => hnp (hmemvalid p hin).1)]
        exact hinv.gridOut p hnp
      · intro R hR
        show st.regionCount + 1 = R.card
        have hpk_mem : pk ∈ R := (hR pk).mpr ⟨hrep, hns, by rw [hrmpk]; omega⟩
        have hchar : ∀ q, q ∈ R.erase pk ↔
            (componentRep w h g0 q ∧ ¬ smallComponent w h g0 minSize q ∧
              rmIndex w q < k) := by
          intro q
          rw [Finset.mem_erase, hR q]
          constructor
          · rintro ⟨hne, hrep', hs', hlt'⟩
            refine ⟨hrep', hs', ?_⟩
            rcases Nat.lt_succ_iff_lt_or_eq.mp hlt' with hl | hl
            · exact hl
            · exact absurd (rmIndex_inj hrep'.1 hpkvalid (by rw [hl, hrmpk])) hne
          · rintro ⟨hrep', hs', hlt'⟩
            refine ⟨?_, hrep', hs', by omega⟩
            intro heq
            rw [heq, hrmpk] at hlt'
            omega
        have hcount := hinv.countv (R.erase pk) hchar
        rw [hcount, Finset.card_erase_of_mem hpk_mem]
        have hRpos : 0 < R.card := Finset.card_pos.mpr ⟨pk, hpk_mem⟩
        omega
      · show st.currentRegionId + 1 = (↑(st.regionCount + 1) : Int) + 1
        rw [hinv.curId]
        push_cast
        ring
    · rw [scanStep_small hA hlen]
      have hsm : smallComponent w h g0 minSize pk := by
        rw [hsmall_iff]
        omega
      have hgrid_in : ∀ p : Nat × Nat, zreach w h g0 pk p →
          relabelAll ff.grid ff.pixels p.2 p.1 = -1 := by
        intro p hin
        rw [relabelAll_char, if_pos ((hmem p).mpr hin)]
      have hgrid_out : ∀ p : Nat × Nat, ¬ zreach w h g0 pk p →
          relabelAll ff.grid ff.pixels p.2 p.1 = st.grid p.2 p.1 := by
        intro p hin
        rw [relabelAll_char, if_neg (fun hc => hin ((hmem p).mp hc)), hffspec.2.2 p.2 p.1,
          if_neg (fun hc => hin ((hmem p).mp hc))]
      refine ⟨?_, ?_, ?_, ?_, ?_, ?_⟩
      · intro p hp
        show relabelAll ff.grid ff.pixels p.2 p.1 = 0 ↔ _
        by_cases hin : zreach w h g0 pk p
        · rw [hgrid_in p hin]
          constructor
          · intro hcon
            exact absurd hcon (by decide)
          · rintro ⟨_, ht1⟩
            exact absurd (htouched_new p hin) ht1
        · rw [hgrid_out p hin, hinv.gridZero p hp]
          constructor
          · rintro ⟨h0, htk⟩
            exact ⟨h0, fun ht1 => htk ((hT' p hin hp h0).mp ht1)⟩
          · rintro ⟨h0, ht1⟩
            exact ⟨h0, fun htk => ht1 (touched_mono htk)⟩
      · intro p hp
        show relabelAll ff.grid ff.pixels p.2 p.1 = -1 ↔ _
        by_cases hin : zreach w h g0 pk p
        · rw [hgrid_in p hin]
          obtain ⟨hpv, hp0⟩ := hmemvalid p hin
          constructor
          · intro _
            exact Or.inr ⟨hp0, htouched_new p hin, (hsmall_tr p hin).mpr hsm⟩
          · intro _
            rfl
        · rw [hgrid_out p hin, hinv.gridNeg p hp]
          constructor
          · rintro (hneg | ⟨h0, htk, hs⟩)
            · exact Or.inl hneg
            · exact Or.inr ⟨h0, touched_mono htk, hs⟩
          · rintro (hneg | ⟨h0, ht1, hs⟩)
            · exact Or.inl hneg
            · exact Or.inr ⟨h0, (hT' p hin hp h0).mp ht1, hs⟩
      · intro p hp
        show 0 < relabelAll ff.grid ff.pixels p.2 p.1 ↔ _
        by_cases hin : zreach w h g0 pk p
        · rw [hgrid_in p hin]
          obtain ⟨hpv, hp0⟩ := hmemvalid p hin
          constructor
          · intro hcon
            exact absurd hcon (by decide)
          · rintro ⟨_, _, hs⟩
            exact absurd ((hsmall_tr p hin).mpr hsm) hs
        · rw [hgrid_out p hin, hinv.gridPos p hp]
          constructor
          · rintro ⟨h0, htk, hs⟩
            exact ⟨h0, touched_mono htk, hs⟩
          · rintro ⟨h0, ht1, hs⟩
            exact ⟨h0, (hT' p hin hp h0).mp ht1, hs⟩
      · intro p hnp
        show relabelAll ff.grid ff.pixels p.2 p.1 = g0 p.2 p.1
        rw [hgrid_out p (fun hin => hnp (hmemvalid p hin).1)]
        exact hinv.gridOut p hnp
      · intro R hR
        show st.regionCount = R.card
        apply hinv.countv
        intro q
        rw [hR q]
        constructor
        · rintro ⟨hrep', hs', hlt'⟩
          refine ⟨hrep', hs', ?_⟩
          rcases Nat.lt_succ_iff_lt_or_eq.mp hlt' with hl | hl
          · exact hl
          · exfalso
            have hq_pk : q = pk := rmIndex_inj hrep'.1 hpkvalid (by rw [hl, hrmpk])
            rw [hq_pk] at hs'
            exact hs' hsm
        · rintro ⟨hrep', hs', hlt'⟩
          exact ⟨hrep', hs', by omega⟩
      · show st.currentRegionId = (↑st.regionCount : Int) + 1
        exact hinv.curId

/-- The scan invariant holds after every prefix of the raster pass. -/
theorem scanInv_all (img : ImageDataM) (t : ℚ) (minSize : Nat) (k : Nat)
    (hk : k ≤ img.height * img.width) :
    ScanInv img.width img.height (initialGrid img t) minSize k
      (scanFold img t minSize k) := by
  induction k with
  | zero => exact scanInv_zero img t minSize
  | succ n ih =>
    exact scanInv_step img t minSize n (by omega) (ih (by omega))

/-- C6.  For every input image, boundary threshold and minimum region
size, every maximal 4-connected area of non-boundary pixels with fewer
than `minRegionSize` pixels is assigned no region id by `detectRegions`:
all of its pixels are relabeled to `-1` (boundary), and it does not
increment `regionCount` — the final `regionCount` equals the number of
(representatives of) non-small areas, so small areas contribute zero
regions. -/
theorem detectRegions_noise_filtering (img : ImageDataM) (t : ℚ) (minSize : Nat) :
    (∀ p : Nat × Nat, validPos img.width img.height p →
      initialGrid img t p.2 p.1 = 0 →
      smallComponent img.width img.height (initialGrid img t) minSize p →
      (detectRegions img t minSize).pixelToRegion p.2 p.1 = -1) ∧
    (∀ R : Finset (Nat × Nat),
      (∀ q, q ∈ R ↔ (componentRep img.width img.height (initialGrid img t) q ∧
        ¬ smallComponent img.width img.height (initialGrid img t) minSize q)) →
      (detectRegions img t minSize).regionCount = R.card) := by
  have hinv := scanInv_all img t minSize (img.height * img.width) le_rfl
  constructor
  · intro p hp hp0 hsm
    show (scanFold img t minSize (img.height * img.width)).grid p.2 p.1 = -1
    exact (hinv.gridNeg p hp).mpr
      (Or.inr ⟨hp0, ⟨p, zreach_refl _ _ _ p, rmIndex_lt_of_valid hp⟩, hsm⟩)
  · intro R hR
    show (scanFold img t minSize (img.height * img.width)).regionCount = R.card
    apply hinv.countv
    intro q
    rw [hR q]
    constructor
    · rintro ⟨hrep, hs⟩
      exact ⟨hrep, hs, rmIndex_lt_of_valid hrep.1⟩
    · rintro ⟨hrep, hs, _⟩
      exact ⟨hrep, hs⟩

/-- C6, witness.  On the all-white 4 × 4 image with minimum region size
100, the single 16-pixel non-boundary area is small: the theorem yields
`pixelToRegion 0 0 = -1` and `regionCount = 0` (instantiating the
second part at `R = ∅`). -/
theorem detectRegions_noise_filtering_witness :
    (detectRegions whiteImage4 128 100).pixelToRegion 0 0 = -1 ∧
      (detectRegions whiteImage4 128 100).regionCount = 0 := by
  have hsmall : ∀ p : Nat × Nat, validPos 4 4 p →
      smallComponent 4 4 (initialGrid whiteImage4 128) 100 p := by
    intro p hp
    obtain ⟨x, y⟩ := p
    obtain ⟨hx, hy⟩ := hp
    have hp0 : ∀ q : Nat × Nat, validPos 4 4 q →
        initialGrid whiteImage4 128 q.2 q.1 = 0 := by
      intro q hq
      obtain ⟨qx, qy⟩ := q
      obtain ⟨hqx, hqy⟩ := hq
      interval_cases qx <;> interval_cases qy <;> decide
    refine (smallComponent_iff_floodFill 4 4 _ 100 (x, y) ⟨hx, hy⟩
      (hp0 (x, y) ⟨hx, hy⟩)).mpr ?_
    interval_cases x <;> interval_cases y <;> decide
  have hmain := detectRegions_noise_filtering whiteImage4 128 100
  constructor
  · exact hmain.1 (0, 0) (by decide) (by decide) (hsmall (0, 0) (by decide))
  · apply hmain.2 ∅
    intro q
    simp only [Finset.not_mem_empty, false_iff]
    rintro ⟨hrep, hns⟩
    exact hns (hsmall q hrep.1)
